import Mathlib

/-! Thermistor simulator: conversion model and channel controller.

Shallow embedding of `thermistor_sim.h` (the Beta-equation conversion model) and of the
channel API of `thermistor_sim.c` (`thermistor_sim_init`, `thermistor_set_temp`,
`thermistor_set_all_temp`, `thermistor_set_gradient`, `thermistor_sweep_channel`).

The C `float` type is a parameter `F` of every definition: the program text only needs the
operations collected in `FloatOps`.  Results about the channel table hold for every such `F`.

Two carriers are used for numeric results.  `B32` is IEEE-754 binary32: finite values are
integer multiples of `2^-149`, the four arithmetic operations and the conversions round to
nearest with ties to even, overflow gives an infinity, zero is signed; every operation of an
expression rounds on its own (no wider intermediate precision, no fused multiply-add);
`expf` and `logf` belong to the platform and are a parameter (`Libm32`).  `XReal` is exact
real arithmetic extended with the two infinities and NaN; it is used only at inputs where no
operation of the program rounds or where the special values alone decide the result.
-/

set_option maxRecDepth 100000

namespace ThermistorSim

/-- Operations of the C `float` type that the program uses: `+ - * /`, decimal literals,
the conversion from an unsigned integer, and `expf` / `logf` of `<math.h>`. -/
class FloatOps (F : Type) extends Add F, Sub F, Mul F, Div F, OfScientific F, NatCast F where
  /-- The function `expf` of `<math.h>`. -/
  expf : F → F
  /-- The function `logf` of `<math.h>`. -/
  logf : F → F

/-! ## thermistor_sim.h -/

/-- `#define THERM_VCC 3.3f` -/
def THERM_VCC {F : Type} [FloatOps F] : F := 3.3

/-- `#define THERM_R_FIXED 10000.0f` -/
def THERM_R_FIXED {F : Type} [FloatOps F] : F := 10000.0

/-- `#define THERM_R_NOMINAL 10000.0f` -/
def THERM_R_NOMINAL {F : Type} [FloatOps F] : F := 10000.0

/-- `#define THERM_BETA 3950.0f` -/
def THERM_BETA {F : Type} [FloatOps F] : F := 3950.0

/-- `#define THERM_T_NOMINAL 25.0f` -/
def THERM_T_NOMINAL {F : Type} [FloatOps F] : F := 25.0

/-- Temperature -> Resistance (Beta equation). -/
def therm_resistance_from_temp {F : Type} [FloatOps F] (temp_celsius : F) : F :=
  let t_kelvin := temp_celsius + 273.15
  let t_nom_kelvin := (THERM_T_NOMINAL : F) + 273.15
  let exp_term := FloatOps.expf (THERM_BETA * (1.0 / t_kelvin - 1.0 / t_nom_kelvin))
  THERM_R_NOMINAL * exp_term

/-- Resistance -> Voltage (voltage divider). -/
def therm_voltage_from_resistance {F : Type} [FloatOps F] (r_thermistor : F) : F :=
  THERM_VCC * (THERM_R_FIXED / (r_thermistor + THERM_R_FIXED))

/-- Temperature -> Voltage (combined). -/
def therm_voltage_from_temp {F : Type} [FloatOps F] (temp_celsius : F) : F :=
  let r := therm_resistance_from_temp temp_celsius
  therm_voltage_from_resistance r

/-- Voltage -> Duty cycle in percent. -/
def therm_duty_from_voltage {F : Type} [FloatOps F] (voltage : F) : F :=
  (voltage / THERM_VCC) * 100.0

/-- Temperature -> Duty cycle in percent (direct conversion). -/
def therm_duty_from_temp {F : Type} [FloatOps F] (temp_celsius : F) : F :=
  let voltage := therm_voltage_from_temp temp_celsius
  therm_duty_from_voltage voltage

/-- Reverse: Voltage -> Temperature.  The source has no guard on `voltage`. -/
def therm_temp_from_voltage {F : Type} [FloatOps F] (voltage : F) : F :=
  let r_therm := (THERM_R_FIXED : F) * (THERM_VCC / voltage - 1.0)
  let t_nom_kelvin := (THERM_T_NOMINAL : F) + 273.15
  let t_kelvin := 1.0 / ((1.0 / t_nom_kelvin) +
                         (1.0 / THERM_BETA) * FloatOps.logf (r_therm / THERM_R_NOMINAL))
  t_kelvin - 273.15

/-! ## Float values: exact reals with the IEEE-754 special values -/

/-- A float value: a finite real, plus or minus infinity, or NaN. -/
inductive XReal where
  | fin (x : ℝ)
  | pinf
  | ninf
  | nan

namespace XReal

/-- Infinity carrying the sign of a nonzero real. -/
noncomputable def inf_of_sign (a : ℝ) : XReal := if 0 < a then pinf else ninf

/-- Negation. -/
noncomputable def neg : XReal → XReal
  | fin a => fin (-a)
  | pinf => ninf
  | ninf => pinf
  | nan => nan

/-- Addition: opposite infinities give NaN. -/
noncomputable def add : XReal → XReal → XReal
  | fin a, fin b => fin (a + b)
  | fin _, pinf => pinf
  | fin _, ninf => ninf
  | pinf, fin _ => pinf
  | ninf, fin _ => ninf
  | pinf, pinf => pinf
  | ninf, ninf => ninf
  | pinf, ninf => nan
  | ninf, pinf => nan
  | nan, _ => nan
  | _, nan => nan

/-- Subtraction `a - b` is `a + (-b)`. -/
noncomputable def sub (a b : XReal) : XReal := add a (neg b)

/-- Multiplication: zero times an infinity gives NaN. -/
noncomputable def mul : XReal → XReal → XReal
  | fin a, fin b => fin (a * b)
  | fin a, pinf => if a = 0 then nan else inf_of_sign a
  | fin a, ninf => if a = 0 then nan else inf_of_sign (-a)
  | pinf, fin b => if b = 0 then nan else inf_of_sign b
  | ninf, fin b => if b = 0 then nan else inf_of_sign (-b)
  | pinf, pinf => pinf
  | ninf, ninf => pinf
  | pinf, ninf => ninf
  | ninf, pinf => ninf
  | nan, _ => nan
  | _, nan => nan

/-- Division: a nonzero finite value over zero gives an infinity, `0/0` and
`inf/inf` give NaN, a finite value over an infinity gives zero.  Zero counts as `+0`. -/
noncomputable def div : XReal → XReal → XReal
  | fin a, fin b => if b = 0 then (if a = 0 then nan else inf_of_sign a) else fin (a / b)
  | fin _, pinf => fin 0
  | fin _, ninf => fin 0
  | pinf, fin b => if 0 ≤ b then pinf else ninf
  | ninf, fin b => if 0 ≤ b then ninf else pinf
  | pinf, pinf => nan
  | ninf, ninf => nan
  | pinf, ninf => nan
  | ninf, pinf => nan
  | nan, _ => nan
  | _, nan => nan

/-- The exponential: `exp(+inf) = +inf`, `exp(-inf) = 0`. -/
noncomputable def exp : XReal → XReal
  | fin a => fin (Real.exp a)
  | pinf => pinf
  | ninf => fin 0
  | nan => nan

/-- The logarithm: `log(0) = -inf`, NaN on negative arguments. -/
noncomputable def log : XReal → XReal
  | fin a => if 0 < a then fin (Real.log a) else if a = 0 then ninf else nan
  | pinf => pinf
  | ninf => nan
  | nan => nan

/-- IEEE ordering: NaN is unordered, `-inf < finite < +inf`. -/
def lt : XReal → XReal → Prop
  | fin a, fin b => a < b
  | fin _, pinf => True
  | ninf, fin _ => True
  | ninf, pinf => True
  | _, _ => False

end XReal

noncomputable instance : FloatOps XReal where
  add := XReal.add
  sub := XReal.sub
  mul := XReal.mul
  div := XReal.div
  ofScientific m s e := XReal.fin (OfScientific.ofScientific m s e)
  natCast n := XReal.fin (n : ℝ)
  expf := XReal.exp
  logf := XReal.log

instance : LT XReal := ⟨XReal.lt⟩

namespace XReal

/-- The real number `therm_resistance_from_temp` computes at a finite temperature `t`
other than -273.15 (see `resistance_fin`). -/
noncomputable def resistance_real (t : ℝ) : ℝ :=
  10000.0 * Real.exp (3950.0 * (1.0 / (t + 273.15) - 1.0 / (25.0 + 273.15)))

/-- The real number `therm_voltage_from_resistance` computes at a finite resistance `r`
other than -10000 (see `voltage_from_resistance_fin`). -/
noncomputable def voltage_real (r : ℝ) : ℝ := 3.3 * (10000.0 / (r + 10000.0))

/-- The real number `therm_duty_from_voltage` computes at a finite voltage. -/
noncomputable def duty_real (v : ℝ) : ℝ := v / 3.3 * 100.0

end XReal

/-! ## Float values: IEEE-754 binary32 -/

/-- A binary32 value.  `fin z` is the finite number `z * 2^-149` (`fin 0` is `+0`), `nzero`
is `-0`. -/
inductive B32 where
  | fin (z : Int)
  | nzero
  | pinf
  | ninf
  | nan
deriving DecidableEq

namespace B32

/-- Nearest integer to `a / d`, ties to even. -/
def rhe (a d : Nat) : Nat :=
  if 2 * (a % d) < d then a / d
  else if d < 2 * (a % d) then a / d + 1
  else if (a / d) % 2 = 0 then a / d
  else a / d + 1

/-- Number of halvings that bring `q` below `2^24`, with at most `fuel` halvings. -/
def shiftAux : Nat → Nat → Nat
  | 0, _ => 0
  | fuel + 1, q => if q < 2 ^ 24 then 0 else shiftAux fuel (q / 2) + 1

/-- Exponent of the spacing of binary32 values around `q * 2^-149`: the spacing there is
`2^(shift q) * 2^-149`. -/
def shift (q : Nat) : Nat := shiftAux q q

/-- The multiple of the local spacing nearest to `a / b`, ties to even. -/
def rnd (a b : Nat) : Nat := rhe a (b * 2 ^ shift (a / b)) * 2 ^ shift (a / b)

/-- The value `2^128` in units of `2^-149`: results this large overflow to infinity. -/
def QINF : Nat := 2 ^ 139 * 2 ^ 138

/-- An infinity with the given sign. -/
def infS (neg : Bool) : B32 := if neg then ninf else pinf

/-- A zero with the given sign. -/
def zeroS (neg : Bool) : B32 := if neg then nzero else fin 0

/-- The binary32 value nearest to `a / b * 2^-149` with the given sign (round to nearest,
ties to even; overflow gives an infinity, underflow a signed zero). -/
def round (neg : Bool) (a b : Nat) : B32 :=
  if QINF ≤ rnd a b then infS neg
  else if rnd a b = 0 then zeroS neg
  else fin (if neg then -(rnd a b : Int) else (rnd a b : Int))

/-- Sign bit. -/
def isNeg : B32 → Bool
  | fin z => decide (z < 0)
  | nzero => true
  | ninf => true
  | _ => false

/-- Magnitude of a finite value in units of `2^-149`. -/
def mag : B32 → Nat
  | fin z => z.natAbs
  | _ => 0

/-- Value of a finite number in units of `2^-149`. -/
def val : B32 → Int
  | fin z => z
  | _ => 0

/-- Is the value an infinity. -/
def isInf : B32 → Bool
  | pinf => true
  | ninf => true
  | _ => false

/-- Negation: flips the sign bit. -/
def neg : B32 → B32
  | fin z => if z = 0 then nzero else fin (-z)
  | nzero => fin 0
  | pinf => ninf
  | ninf => pinf
  | nan => nan

/-- Binary32 addition. -/
def add (a b : B32) : B32 :=
  if a = nan ∨ b = nan then nan
  else if isInf a then (if isInf b ∧ isNeg a ≠ isNeg b then nan else a)
  else if isInf b then b
  else if a = nzero ∧ b = nzero then nzero
  else if val a + val b = 0 then fin 0
  else round (decide (val a + val b < 0)) (val a + val b).natAbs 1

/-- Binary32 subtraction. -/
def sub (a b : B32) : B32 := add a (neg b)

/-- Binary32 multiplication. -/
def mul (a b : B32) : B32 :=
  if a = nan ∨ b = nan then nan
  else if isInf a ∨ isInf b then
    (if (mag a = 0 ∧ ¬ isInf a) ∨ (mag b = 0 ∧ ¬ isInf b) then nan
     else infS (xor (isNeg a) (isNeg b)))
  else round (xor (isNeg a) (isNeg b)) (mag a * mag b) (2 ^ 149)

/-- Binary32 division. -/
def div (a b : B32) : B32 :=
  if a = nan ∨ b = nan then nan
  else if isInf a then (if isInf b then nan else infS (xor (isNeg a) (isNeg b)))
  else if isInf b then zeroS (xor (isNeg a) (isNeg b))
  else if mag b = 0 then
    (if mag a = 0 then nan else infS (xor (isNeg a) (isNeg b)))
  else round (xor (isNeg a) (isNeg b)) (mag a * 2 ^ 149) (mag b)

/-- A decimal literal `m * 10^(-e)` or `m * 10^e`, rounded to binary32. -/
def ofScientific (m : Nat) (s : Bool) (e : Nat) : B32 :=
  if s then round false (m * 2 ^ 149) (10 ^ e) else round false (m * 10 ^ e * 2 ^ 149) 1

/-- Conversion of an unsigned integer to binary32. -/
def ofNat (n : Nat) : B32 := round false (n * 2 ^ 149) 1


/-- The comparison `a <= b` of C: false when either side is NaN, and `-0 <= +0`. -/
def le (a b : B32) : Prop :=
  a ≠ nan ∧ b ≠ nan ∧
    (a = ninf ∨ b = pinf ∨ (isInf a = false ∧ isInf b = false ∧ val a ≤ val b))

/-- The comparison `a < b` of C: false when either side is NaN, and `-0 < +0` is false. -/
def lt (a b : B32) : Prop :=
  a ≠ nan ∧ b ≠ nan ∧
    ((a = ninf ∧ b ≠ ninf) ∨ (b = pinf ∧ a ≠ pinf)
      ∨ (isInf a = false ∧ isInf b = false ∧ val a < val b))

/-- The value is one that binary32 can hold: a finite value is below `2^128` in magnitude
and a multiple of the spacing at its magnitude. -/
def wf (a : B32) : Prop := mag a < QINF ∧ mag a % 2 ^ shift (mag a) = 0

/-- The signed integer with the given sign and magnitude. -/
def signed (neg : Bool) (a : Nat) : Int := if neg then -(a : Int) else (a : Int)


/-- A finite value: neither NaN nor an infinity. -/
def isFinite (a : B32) : Prop := a ≠ nan ∧ isInf a = false

/-- A finite value above zero. -/
def isPosFin (c : B32) : Prop := c = fin (val c) ∧ 0 < val c

instance (c : B32) : Decidable (isPosFin c) :=
  inferInstanceAs (Decidable (c = fin (val c) ∧ 0 < val c))

instance (a b : B32) : Decidable (le a b) :=
  inferInstanceAs (Decidable (a ≠ nan ∧ b ≠ nan ∧
    (a = ninf ∨ b = pinf ∨ (isInf a = false ∧ isInf b = false ∧ val a ≤ val b))))

instance (a b : B32) : Decidable (lt a b) :=
  inferInstanceAs (Decidable (a ≠ nan ∧ b ≠ nan ∧
    ((a = ninf ∧ b ≠ ninf) ∨ (b = pinf ∧ a ≠ pinf)
      ∨ (isInf a = false ∧ isInf b = false ∧ val a < val b))))

instance (a : B32) : Decidable (wf a) :=
  inferInstanceAs (Decidable (mag a < QINF ∧ mag a % 2 ^ shift (mag a) = 0))

instance (a : B32) : Decidable (isFinite a) :=
  inferInstanceAs (Decidable (a ≠ nan ∧ isInf a = false))

end B32

/-- The single-precision functions of the platform's `<math.h>` that the header calls.
They are not part of the sources, so they are a parameter: any two functions on binary32
values. -/
class Libm32 where
  /-- The function `expf`. -/
  expf : B32 → B32
  /-- The function `logf`. -/
  logf : B32 → B32

instance : OfScientific B32 := ⟨B32.ofScientific⟩

instance : Neg B32 := ⟨B32.neg⟩

/-- The C `float` type as binary32, over a given libm. -/
instance B32.floatOps [Libm32] : FloatOps B32 where
  add := B32.add
  sub := B32.sub
  mul := B32.mul
  div := B32.div
  ofScientific := B32.ofScientific
  natCast := B32.ofNat
  expf := Libm32.expf
  logf := Libm32.logf

/-- A libm whose `expf` takes the values the C standard fixes (`expf(-inf) = +0`,
`expf(0) = 1`, `expf(+inf) = +inf`, NaN for NaN) and is constant 1 on the finite values:
a non-decreasing, non-negative `expf`, used to show that these hypotheses can be met. -/
def B32.libm_step : Libm32 where
  expf := fun x => match x with
    | B32.nan => B32.nan
    | B32.ninf => B32.fin 0
    | B32.pinf => B32.pinf
    | _ => B32.ofNat 1
  logf := fun x => x

/-! ## thermistor_sim.c -/

/-- `#define NUM_CHANNELS 41` -/
abbrev NUM_CHANNELS : Nat := 41

/-- Modelled from the spec: the error code `EINVAL` comes from the platform header
`errno.h`, which is not part of the sources; the spec names the failure `InvalidChannel`.
Zephyr defines it as 22. -/
def EINVAL : Int := 22

/-- The record `struct pwm_channel`; the device pointer is kept as a number. -/
structure pwm_channel (F : Type) where
  dev : Nat
  channel : Nat
  current_duty : F
  current_temp : F

/-- The arguments of one `printk` call of `thermistor_set_temp`. -/
structure printk_args (F : Type) where
  channel : Nat
  temp_celsius : F
  resistance : F
  voltage : F
  duty : F

/-- Program state: the static table `channels[NUM_CHANNELS]`, the lines printed so far and the
delays passed to `k_msleep` so far (both oldest first). -/
structure Sim (F : Type) where
  channels : Fin NUM_CHANNELS → pwm_channel F
  console : List (printk_args F)
  slept : List Nat

/-- The two assignments `channels[i].current_temp = temp; channels[i].current_duty = duty`. -/
def channels_store {F : Type} (channels : Fin NUM_CHANNELS → pwm_channel F) (i : Nat)
    (temp duty : F) : Fin NUM_CHANNELS → pwm_channel F :=
  fun j => if j.val = i then { channels j with current_temp := temp, current_duty := duty }
           else channels j

/-- The kernel call `k_msleep(ms)`: the requested delay is recorded. -/
def k_msleep {F : Type} (ms : Nat) (st : Sim F) : Sim F :=
  { st with slept := st.slept ++ [ms] }

/-- Loop of `thermistor_sim_init`: `for (int i = 0; i < NUM_CHANNELS; i++)`, entered at `i`. -/
def thermistor_sim_init_loop {F : Type} [FloatOps F] (i : Nat) (st : Sim F) : Sim F :=
  if i < NUM_CHANNELS then
    thermistor_sim_init_loop (i + 1)
      { st with channels := channels_store st.channels i 25.0 (therm_duty_from_temp 25.0) }
  else st
termination_by NUM_CHANNELS - i

/-- Initialize channels. -/
def thermistor_sim_init {F : Type} [FloatOps F] (st : Sim F) : Sim F :=
  thermistor_sim_init_loop 0 st

/-- The values handed to `printk` by `thermistor_set_temp`: the channel, the temperature,
`therm_resistance_from_temp(temp_celsius)`, `therm_voltage_from_temp(temp_celsius)` and the
duty. -/
def set_temp_printk {F : Type} [FloatOps F] (channel : Nat) (temp_celsius duty : F) :
    printk_args F :=
  { channel := channel, temp_celsius := temp_celsius,
    resistance := therm_resistance_from_temp temp_celsius,
    voltage := therm_voltage_from_temp temp_celsius, duty := duty }

/-- Set a channel to a specific temperature.  `channel` is the `uint8_t` parameter; the
result is the returned `int` and the state after the call. -/
def thermistor_set_temp {F : Type} [FloatOps F] (channel : Nat) (temp_celsius : F)
    (st : Sim F) : Int × Sim F :=
  if channel ≥ NUM_CHANNELS then (-EINVAL, st)
  else
    let duty := therm_duty_from_temp temp_celsius
    (0, { st with
          channels := channels_store st.channels channel temp_celsius duty
          console := st.console ++ [set_temp_printk channel temp_celsius duty] })

/-- Loop of `thermistor_set_all_temp`, entered at `i`; the `int` index is narrowed to the
`uint8_t` parameter of `thermistor_set_temp`. -/
def thermistor_set_all_temp_loop {F : Type} [FloatOps F] (temp_celsius : F) (i : Nat)
    (st : Sim F) : Int × Sim F :=
  if i < NUM_CHANNELS then
    let r := thermistor_set_temp (i % 256) temp_celsius st
    if r.1 < 0 then (r.1, r.2)
    else thermistor_set_all_temp_loop temp_celsius (i + 1) r.2
  else (0, st)
termination_by NUM_CHANNELS - i

/-- Set all channels to same temperature. -/
def thermistor_set_all_temp {F : Type} [FloatOps F] (temp_celsius : F) (st : Sim F) :
    Int × Sim F :=
  thermistor_set_all_temp_loop temp_celsius 0 st

/-- The interpolated temperature of channel `i` in `thermistor_set_gradient`:
`t_min + (t_max - t_min) * ((float)i / (NUM_CHANNELS - 1))`. -/
def gradient_temp {F : Type} [FloatOps F] (t_min t_max : F) (i : Nat) : F :=
  t_min + (t_max - t_min) * ((i : F) / ((NUM_CHANNELS - 1 : Nat) : F))

/-- Loop of `thermistor_set_gradient`, entered at `i`. -/
def thermistor_set_gradient_loop {F : Type} [FloatOps F] (t_min t_max : F) (i : Nat)
    (st : Sim F) : Int × Sim F :=
  if i < NUM_CHANNELS then
    let temp := gradient_temp t_min t_max i
    let r := thermistor_set_temp (i % 256) temp st
    if r.1 < 0 then (r.1, r.2)
    else thermistor_set_gradient_loop t_min t_max (i + 1) r.2
  else (0, st)
termination_by NUM_CHANNELS - i

/-- Set temperature gradient across all channels. -/
def thermistor_set_gradient {F : Type} [FloatOps F] (t_min t_max : F) (st : Sim F) :
    Int × Sim F :=
  thermistor_set_gradient_loop t_min t_max 0 st

/-- How a call of a function that may not return ends. -/
inductive Outcome (α : Type) where
  /-- The call returned in this state. -/
  | returned (a : α)
  /-- The call ran into C undefined behaviour (integer division by zero). -/
  | undefined
  /-- The loop was still running when the iteration budget was used up. -/
  | running

/-- The sample of iteration `i` of a sweep:
`t_start + (t_end - t_start) * ((float)i / steps)`. -/
def sweep_temp {F : Type} [FloatOps F] (t_start t_end : F) (steps i : Nat) : F :=
  t_start + (t_end - t_start) * ((i : F) / (steps : F))

/-- One pass through the body of the sweep loop: set the sample, then sleep. -/
def sweep_body {F : Type} [FloatOps F] (channel : Nat) (t_start t_end : F)
    (delay_ms steps i : Nat) (st : Sim F) : Sim F :=
  k_msleep delay_ms (thermistor_set_temp channel (sweep_temp t_start t_end steps i) st).2

/-- Loop of `thermistor_sweep_channel`: `for (uint32_t i = 0; i <= steps; i++)`, entered at
`i`, with at most `fuel` evaluations of the loop condition; `i++` wraps at `2^32`. -/
def thermistor_sweep_channel_loop {F : Type} [FloatOps F] (channel : Nat) (t_start t_end : F)
    (delay_ms steps : Nat) : Nat → Nat → Sim F → Outcome (Sim F)
  | 0, _, _ => Outcome.running
  | fuel + 1, i, st =>
    if i ≤ steps then
      thermistor_sweep_channel_loop channel t_start t_end delay_ms steps fuel
        ((i + 1) % 2 ^ 32) (sweep_body channel t_start t_end delay_ms steps i st)
    else Outcome.returned st

/-- Temperature sweep on a channel.  `duration_ms / steps` is an unsigned 32-bit division,
undefined for `steps = 0`. -/
def thermistor_sweep_channel {F : Type} [FloatOps F] (fuel : Nat) (channel : Nat)
    (t_start t_end : F) (duration_ms steps : Nat) (st : Sim F) : Outcome (Sim F) :=
  if steps = 0 then Outcome.undefined
  else
    let delay_ms := duration_ms / steps
    thermistor_sweep_channel_loop channel t_start t_end delay_ms steps fuel 0 st

/-- The state at program start: the static table is zero-initialised, nothing has been
printed and nothing has been slept. -/
def boot_state {F : Type} [FloatOps F] : Sim F :=
  { channels := fun _ => { dev := 0, channel := 0, current_duty := 0.0, current_temp := 0.0 }
    console := []
    slept := [] }

/-- The table invariant: in every channel the stored duty is the duty of the stored
temperature. -/
def duty_consistent {F : Type} [FloatOps F] (st : Sim F) : Prop :=
  ∀ i : Fin NUM_CHANNELS,
    (st.channels i).current_duty = therm_duty_from_temp (st.channels i).current_temp

/-- States reachable from `thermistor_sim_init` by calls of the four mutating operations,
with arbitrary arguments. -/
inductive Reachable {F : Type} [FloatOps F] : Sim F → Prop where
  | init (st : Sim F) : Reachable (thermistor_sim_init st)
  | set_temp (channel : Nat) (temp_celsius : F) (st : Sim F) :
      Reachable st → Reachable (thermistor_set_temp channel temp_celsius st).2
  | set_all_temp (temp_celsius : F) (st : Sim F) :
      Reachable st → Reachable (thermistor_set_all_temp temp_celsius st).2
  | set_gradient (t_min t_max : F) (st : Sim F) :
      Reachable st → Reachable (thermistor_set_gradient t_min t_max st).2
  | sweep_channel (fuel channel : Nat) (t_start t_end : F) (duration_ms steps : Nat)
      (st st1 : Sim F) :
      Reachable st →
      thermistor_sweep_channel fuel channel t_start t_end duration_ms steps st
        = Outcome.returned st1 →
      Reachable st1

/-- The conversion of an `int` argument to a `uint8_t` parameter: the value modulo `2^8`. -/
def uint8_of_int (n : Int) : Nat := (n % 256).toNat

/-- Shell command `therm set <channel> <temp>` once `argc == 3` has passed: `channel` and
`temp` are the results of `atoi` and `atof`.  The shell messages are not recorded. -/
def cmd_therm_set {F : Type} [FloatOps F] (channel : Int) (temp : F) (st : Sim F) :
    Int × Sim F :=
  if channel < 0 ∨ channel ≥ NUM_CHANNELS then (-EINVAL, st)
  else
    let r := thermistor_set_temp (uint8_of_int channel) temp st
    if r.1 < 0 then (r.1, r.2)
    else (0, r.2)

/-! ## Evaluation lemmas for `XReal` -/

namespace XReal

@[simp] theorem ofScientific_eq (m : ℕ) (s : Bool) (e : ℕ) :
    (OfScientific.ofScientific m s e : XReal) = fin (OfScientific.ofScientific m s e) := rfl

@[simp] theorem natCast_eq (n : ℕ) : ((n : ℕ) : XReal) = fin (n : ℝ) := rfl

@[simp] theorem fin_add_fin (a b : ℝ) : fin a + fin b = fin (a + b) := rfl

@[simp] theorem fin_sub_fin (a b : ℝ) : fin a - fin b = fin (a - b) := by
  show XReal.sub (fin a) (fin b) = _
  simp [XReal.sub, XReal.neg, XReal.add, sub_eq_add_neg]

@[simp] theorem fin_mul_fin (a b : ℝ) : fin a * fin b = fin (a * b) := rfl

theorem fin_div_fin {a b : ℝ} (hb : b ≠ 0) : fin a / fin b = fin (a / b) := by
  show XReal.div (fin a) (fin b) = _
  simp [XReal.div, hb]

@[simp] theorem expf_fin (a : ℝ) : FloatOps.expf (fin a) = fin (Real.exp a) := rfl

theorem logf_fin_pos {a : ℝ} (ha : 0 < a) : FloatOps.logf (fin a) = fin (Real.log a) := by
  show XReal.log (fin a) = _
  simp [XReal.log, ha]

@[simp] theorem fin_lt_fin (a b : ℝ) : (fin a < fin b) ↔ a < b := Iff.rfl

end XReal

/-! ## The channel controller, for every float type -/

theorem num_channels_eq : NUM_CHANNELS = 41 := rfl

theorem set_temp_invalid {F : Type} [FloatOps F] (c : Nat) (t : F) (st : Sim F)
    (hc : NUM_CHANNELS ≤ c) : thermistor_set_temp c t st = (-EINVAL, st) := by
  unfold thermistor_set_temp
  rw [if_pos hc]

theorem set_temp_valid {F : Type} [FloatOps F] (c : Nat) (t : F) (st : Sim F)
    (hc : c < NUM_CHANNELS) :
    thermistor_set_temp c t st =
      (0, { st with
            channels := channels_store st.channels c t (therm_duty_from_temp t)
            console := st.console ++ [set_temp_printk c t (therm_duty_from_temp t)] }) := by
  unfold thermistor_set_temp
  rw [if_neg (Nat.not_le.mpr hc)]

theorem channels_store_same {F : Type} (ch : Fin NUM_CHANNELS → pwm_channel F) (t d : F)
    (j : Fin NUM_CHANNELS) :
    channels_store ch j.val t d j = { ch j with current_temp := t, current_duty := d } := by
  simp [channels_store]

theorem channels_store_other {F : Type} (ch : Fin NUM_CHANNELS → pwm_channel F) (i : Nat)
    (t d : F) (j : Fin NUM_CHANNELS) (h : j.val ≠ i) : channels_store ch i t d j = ch j := by
  simp [channels_store, h]

theorem set_all_loop_eq {F : Type} [FloatOps F] (t : F) :
    ∀ (n i : Nat) (st : Sim F), i + n = NUM_CHANNELS →
      thermistor_set_all_temp_loop t i st =
        (0, (List.range' i n).foldl (fun s j => (thermistor_set_temp j t s).2) st) := by
  intro n
  induction n with
  | zero =>
    intro i st h
    rw [thermistor_set_all_temp_loop]
    have : ¬ i < NUM_CHANNELS := by omega
    simp [this]
  | succ n ih =>
    intro i st h
    have h41 := num_channels_eq
    have hi : i < NUM_CHANNELS := by omega
    have hm : i % 256 = i := Nat.mod_eq_of_lt (by omega)
    rw [thermistor_set_all_temp_loop, if_pos hi, hm]
    simp only [set_temp_valid i t st hi, lt_self_iff_false, if_false]
    rw [ih (i + 1) _ (by omega)]
    simp [List.range'_succ, set_temp_valid i t st hi]

theorem set_gradient_loop_eq {F : Type} [FloatOps F] (t_min t_max : F) :
    ∀ (n i : Nat) (st : Sim F), i + n = NUM_CHANNELS →
      thermistor_set_gradient_loop t_min t_max i st =
        (0, (List.range' i n).foldl
              (fun s j => (thermistor_set_temp j (gradient_temp t_min t_max j) s).2) st) := by
  intro n
  induction n with
  | zero =>
    intro i st h
    rw [thermistor_set_gradient_loop]
    have : ¬ i < NUM_CHANNELS := by omega
    simp [this]
  | succ n ih =>
    intro i st h
    have h41 := num_channels_eq
    have hi : i < NUM_CHANNELS := by omega
    have hm : i % 256 = i := Nat.mod_eq_of_lt (by omega)
    rw [thermistor_set_gradient_loop, if_pos hi, hm]
    simp only [set_temp_valid i _ st hi, lt_self_iff_false, if_false]
    rw [ih (i + 1) _ (by omega)]
    simp [List.range'_succ, set_temp_valid i _ st hi]

/-- Channels after setting the channels `i, i+1, ..., i+n-1` in ascending order, channel `j`
to the temperature `f j`. -/
theorem fold_set_temp_channels {F : Type} [FloatOps F] (f : Nat → F) :
    ∀ (n i : Nat) (st : Sim F), i + n ≤ NUM_CHANNELS → ∀ j : Fin NUM_CHANNELS,
      ((List.range' i n).foldl (fun s k => (thermistor_set_temp k (f k) s).2) st).channels j =
        if i ≤ j.val ∧ j.val < i + n then
          { st.channels j with current_temp := f j.val,
                               current_duty := therm_duty_from_temp (f j.val) }
        else st.channels j := by
  intro n
  induction n with
  | zero =>
    intro i st _ j
    have h0 : ¬ (i ≤ j.val ∧ j.val < i + 0) := by omega
    rw [if_neg h0]
    rfl
  | succ n ih =>
    intro i st h j
    have h41 := num_channels_eq
    have hi : i < NUM_CHANNELS := by omega
    rw [List.range'_succ, List.foldl_cons, ih (i + 1) _ (by omega) j,
      set_temp_valid i (f i) st hi]
    by_cases hji : j.val = i
    · have h1 : ¬ (i + 1 ≤ j.val ∧ j.val < i + 1 + n) := by omega
      have h2 : i ≤ j.val ∧ j.val < i + (n + 1) := by omega
      rw [if_neg h1, if_pos h2]
      subst hji
      simp [channels_store]
    · by_cases h1 : i + 1 ≤ j.val ∧ j.val < i + 1 + n
      · have h2 : i ≤ j.val ∧ j.val < i + (n + 1) := by omega
        rw [if_pos h1, if_pos h2]
        simp [channels_store, hji]
      · have h2 : ¬ (i ≤ j.val ∧ j.val < i + (n + 1)) := by omega
        rw [if_neg h1, if_neg h2]
        simp [channels_store, hji]

theorem sim_init_loop_eq {F : Type} [FloatOps F] :
    ∀ (n i : Nat) (st : Sim F), i + n = NUM_CHANNELS →
      thermistor_sim_init_loop i st =
        { st with channels := fun j =>
            if i ≤ j.val then
              { st.channels j with current_temp := 25.0,
                                   current_duty := therm_duty_from_temp 25.0 }
            else st.channels j } := by
  intro n
  induction n with
  | zero =>
    intro i st h
    rw [thermistor_sim_init_loop]
    have h1 : ¬ i < NUM_CHANNELS := by omega
    rw [if_neg h1]
    have h2 : ∀ j : Fin NUM_CHANNELS, ¬ i ≤ j.val := fun j => by omega
    simp [h2]
  | succ n ih =>
    intro i st h
    have h41 := num_channels_eq
    have hi : i < NUM_CHANNELS := by omega
    rw [thermistor_sim_init_loop, if_pos hi, ih (i + 1) _ (by omega)]
    congr 1
    funext j
    by_cases hji : j.val = i
    · have h1 : ¬ i + 1 ≤ j.val := by omega
      have h2 : i ≤ j.val := by omega
      simp [h1, h2, channels_store, hji]
    · by_cases h1 : i + 1 ≤ j.val
      · have h2 : i ≤ j.val := by omega
        simp [h1, h2, channels_store, hji]
      · have h2 : ¬ i ≤ j.val := by omega
        simp [h1, h2, channels_store, hji]

theorem sweep_body_valid {F : Type} [FloatOps F] (c : Nat) (t_start t_end : F)
    (delay_ms steps i : Nat) (st : Sim F) (hc : c < NUM_CHANNELS) :
    sweep_body c t_start t_end delay_ms steps i st =
      { channels := channels_store st.channels c (sweep_temp t_start t_end steps i)
                      (therm_duty_from_temp (sweep_temp t_start t_end steps i))
        console := st.console ++
          [set_temp_printk c (sweep_temp t_start t_end steps i)
            (therm_duty_from_temp (sweep_temp t_start t_end steps i))]
        slept := st.slept ++ [delay_ms] } := by
  unfold sweep_body
  rw [set_temp_valid c _ st hc]
  rfl

/-- With enough fuel and a step count below `2^32 - 1` the sweep loop entered at `i` runs
the body for `i, i+1, ..., steps` and returns. -/
theorem sweep_loop_eq {F : Type} [FloatOps F] (c : Nat) (t_start t_end : F)
    (delay_ms steps : Nat) (hs : steps < 2 ^ 32 - 1) :
    ∀ (n i fuel : Nat) (st : Sim F), i + n = steps + 1 → n + 1 ≤ fuel →
      thermistor_sweep_channel_loop c t_start t_end delay_ms steps fuel i st =
        Outcome.returned
          ((List.range' i n).foldl
            (fun s k => sweep_body c t_start t_end delay_ms steps k s) st) := by
  intro n
  induction n with
  | zero =>
    intro i fuel st h hf
    obtain ⟨f, rfl⟩ : ∃ f, fuel = f + 1 := ⟨fuel - 1, by omega⟩
    have h1 : ¬ i ≤ steps := by omega
    simp [thermistor_sweep_channel_loop, h1]
  | succ n ih =>
    intro i fuel st h hf
    obtain ⟨f, rfl⟩ : ∃ f, fuel = f + 1 := ⟨fuel - 1, by omega⟩
    have h1 : i ≤ steps := by omega
    have h2 : (i + 1) % 2 ^ 32 = i + 1 := Nat.mod_eq_of_lt (by omega)
    rw [thermistor_sweep_channel_loop, if_pos h1, h2, ih (i + 1) f _ (by omega) (by omega)]
    simp [List.range'_succ]

/-- Effect of the sweep body run for the samples `i, i+1, ..., i+n-1` on a valid channel. -/
theorem fold_sweep_body {F : Type} [FloatOps F] (c : Nat) (t_start t_end : F)
    (delay_ms steps : Nat) (hc : c < NUM_CHANNELS) :
    ∀ (n i : Nat) (st : Sim F),
      ((List.range' i n).foldl
          (fun s k => sweep_body c t_start t_end delay_ms steps k s) st).console =
        st.console ++ (List.range' i n).map (fun k =>
          set_temp_printk c (sweep_temp t_start t_end steps k)
            (therm_duty_from_temp (sweep_temp t_start t_end steps k)))
      ∧ ((List.range' i n).foldl
          (fun s k => sweep_body c t_start t_end delay_ms steps k s) st).slept =
        st.slept ++ List.replicate n delay_ms
      ∧ (∀ j : Fin NUM_CHANNELS, j.val ≠ c →
          ((List.range' i n).foldl
            (fun s k => sweep_body c t_start t_end delay_ms steps k s) st).channels j =
          st.channels j)
      ∧ (∀ j : Fin NUM_CHANNELS, j.val = c → 0 < n →
          ((List.range' i n).foldl
            (fun s k => sweep_body c t_start t_end delay_ms steps k s) st).channels j =
          { st.channels j with
            current_temp := sweep_temp t_start t_end steps (i + n - 1)
            current_duty :=
              therm_duty_from_temp (sweep_temp t_start t_end steps (i + n - 1)) }) := by
  intro n
  induction n with
  | zero =>
    intro i st
    refine ⟨by simp, by simp, fun j _ => rfl, fun j _ h => absurd h (by omega)⟩
  | succ n ih =>
    intro i st
    obtain ⟨h1, h2, h3, h4⟩ := ih (i + 1) (sweep_body c t_start t_end delay_ms steps i st)
    rw [List.range'_succ, List.foldl_cons]
    refine ⟨?_, ?_, ?_, ?_⟩
    · rw [h1, sweep_body_valid c _ _ _ _ _ _ hc]
      simp
    · rw [h2, sweep_body_valid c _ _ _ _ _ _ hc]
      simp [List.replicate_succ]
    · intro j hj
      rw [h3 j hj, sweep_body_valid c _ _ _ _ _ _ hc]
      exact channels_store_other _ _ _ _ _ hj
    · intro j hj _
      rcases Nat.eq_zero_or_pos n with hn | hn
      · subst hn
        subst hj
        rw [List.range'_zero, List.foldl_nil, sweep_body_valid _ _ _ _ _ _ _ hc]
        simp [channels_store]
      · rw [h4 j hj hn, sweep_body_valid c _ _ _ _ _ _ hc]
        subst hj
        have e : i + 1 + n - 1 = i + (n + 1) - 1 := by omega
        simp [channels_store, e]

theorem set_temp_consistent {F : Type} [FloatOps F] (c : Nat) (t : F) (st : Sim F)
    (h : duty_consistent st) : duty_consistent (thermistor_set_temp c t st).2 := by
  by_cases hc : c < NUM_CHANNELS
  · rw [set_temp_valid c t st hc]
    intro i
    by_cases hi : i.val = c
    · simp [channels_store, hi]
    · simpa [channels_store, hi] using h i
  · rw [set_temp_invalid c t st (Nat.le_of_not_lt hc)]
    exact h

theorem fold_set_temp_consistent {F : Type} [FloatOps F] (f : Nat → F) (l : List Nat) :
    ∀ st : Sim F, duty_consistent st →
      duty_consistent (l.foldl (fun s k => (thermistor_set_temp k (f k) s).2) st) := by
  induction l with
  | nil => intro st h; exact h
  | cons a l ih =>
    intro st h
    rw [List.foldl_cons]
    exact ih _ (set_temp_consistent a (f a) st h)

theorem sweep_loop_consistent {F : Type} [FloatOps F] (c : Nat) (t_start t_end : F)
    (delay_ms steps : Nat) :
    ∀ (fuel i : Nat) (st st1 : Sim F), duty_consistent st →
      thermistor_sweep_channel_loop c t_start t_end delay_ms steps fuel i st
        = Outcome.returned st1 →
      duty_consistent st1 := by
  intro fuel
  induction fuel with
  | zero =>
    intro i st st1 _ h
    simp [thermistor_sweep_channel_loop] at h
  | succ fuel ih =>
    intro i st st1 hst h
    rw [thermistor_sweep_channel_loop] at h
    by_cases hi : i ≤ steps
    · rw [if_pos hi] at h
      refine ih _ _ st1 ?_ h
      exact set_temp_consistent c _ st hst
    · rw [if_neg hi] at h
      cases h
      exact hst

theorem sim_init_channels {F : Type} [FloatOps F] (st : Sim F) (i : Fin NUM_CHANNELS) :
    (thermistor_sim_init st).channels i =
      { st.channels i with current_temp := 25.0,
                           current_duty := therm_duty_from_temp 25.0 } := by
  unfold thermistor_sim_init
  rw [sim_init_loop_eq NUM_CHANNELS 0 st (by simp)]
  simp

theorem reachable_consistent {F : Type} [FloatOps F] (st : Sim F) (h : Reachable st) :
    duty_consistent st := by
  induction h with
  | init st0 =>
    intro i
    rw [sim_init_channels]
  | set_temp c t st _ ih => exact set_temp_consistent c t st ih
  | set_all_temp t st _ ih =>
    unfold thermistor_set_all_temp
    rw [set_all_loop_eq t NUM_CHANNELS 0 st (by simp)]
    exact fold_set_temp_consistent (fun _ => t) _ st ih
  | set_gradient t_min t_max st _ ih =>
    unfold thermistor_set_gradient
    rw [set_gradient_loop_eq t_min t_max NUM_CHANNELS 0 st (by simp)]
    exact fold_set_temp_consistent (gradient_temp t_min t_max) _ st ih
  | sweep_channel fuel c t_start t_end duration_ms steps st st1 _ hs ih =>
    unfold thermistor_sweep_channel at hs
    by_cases h0 : steps = 0
    · simp [h0] at hs
    · rw [if_neg h0] at hs
      exact sweep_loop_consistent c t_start t_end _ steps fuel 0 st st1 ih hs

/-! ## The conversion model on finite values -/

namespace XReal

theorem t_nom_kelvin_ne_zero : ((25.0 : ℝ) + 273.15) ≠ 0 := by norm_num

theorem resistance_fin (t : ℝ) (ht : t + 273.15 ≠ 0) :
    therm_resistance_from_temp (fin t) =
      fin (10000.0 * Real.exp (3950.0 * (1.0 / (t + 273.15) - 1.0 / (25.0 + 273.15)))) := by
  simp only [therm_resistance_from_temp, THERM_T_NOMINAL, THERM_BETA, THERM_R_NOMINAL,
    ofScientific_eq, fin_add_fin, fin_div_fin ht, fin_div_fin t_nom_kelvin_ne_zero,
    fin_sub_fin, fin_mul_fin, expf_fin]

theorem voltage_from_resistance_fin (r : ℝ) (hr : r + 10000.0 ≠ 0) :
    therm_voltage_from_resistance (fin r) = fin (3.3 * (10000.0 / (r + 10000.0))) := by
  simp only [therm_voltage_from_resistance, THERM_VCC, THERM_R_FIXED,
    ofScientific_eq, fin_add_fin, fin_div_fin hr, fin_mul_fin]

theorem duty_from_voltage_fin (v : ℝ) :
    therm_duty_from_voltage (fin v) = fin (v / 3.3 * 100.0) := by
  have h : (3.3 : ℝ) ≠ 0 := by norm_num
  simp only [therm_duty_from_voltage, THERM_VCC, ofScientific_eq, fin_div_fin h, fin_mul_fin]

end XReal

namespace XReal

theorem resistance_real_pos (t : ℝ) : 0 < resistance_real t := by
  unfold resistance_real
  exact mul_pos (by norm_num) (Real.exp_pos _)

theorem voltage_from_temp_fin (t : ℝ) (ht : t + 273.15 ≠ 0) :
    therm_voltage_from_temp (fin t) = fin (voltage_real (resistance_real t)) := by
  have hr : resistance_real t + 10000.0 ≠ 0 := by
    have := resistance_real_pos t
    norm_num
    linarith
  unfold therm_voltage_from_temp
  simp only [resistance_fin t ht]
  exact voltage_from_resistance_fin _ hr

theorem duty_from_temp_fin (t : ℝ) (ht : t + 273.15 ≠ 0) :
    therm_duty_from_temp (fin t) = fin (duty_real (voltage_real (resistance_real t))) := by
  unfold therm_duty_from_temp
  simp only [voltage_from_temp_fin t ht]
  exact duty_from_voltage_fin _

end XReal

/-! ## The inverse conversion outside its domain -/

namespace XReal

theorem logf_fin_neg {a : ℝ} (ha : a < 0) : FloatOps.logf (fin a) = nan := by
  show XReal.log (fin a) = _
  have h1 : ¬ 0 < a := not_lt.mpr (le_of_lt ha)
  have h2 : a ≠ 0 := ne_of_lt ha
  simp [XReal.log, h1, h2]

theorem fin_mul_nan (a : ℝ) : fin a * nan = nan := rfl

theorem fin_add_nan (a : ℝ) : fin a + nan = nan := rfl

theorem fin_div_nan (a : ℝ) : fin a / nan = nan := rfl

theorem nan_sub_fin (a : ℝ) : nan - fin a = nan := rfl

theorem nan_div_fin (a : ℝ) : nan / fin a = nan := rfl

theorem logf_nan : FloatOps.logf nan = nan := rfl

theorem fin_div_zero_pos {a : ℝ} (ha : 0 < a) : fin a / fin 0 = pinf := by
  show XReal.div (fin a) (fin 0) = _
  simp [XReal.div, XReal.inf_of_sign, ha, ne_of_gt ha]

theorem pinf_sub_fin (a : ℝ) : pinf - fin a = pinf := rfl

theorem fin_mul_pinf_pos {a : ℝ} (ha : 0 < a) : fin a * pinf = pinf := by
  show XReal.mul (fin a) pinf = _
  simp [XReal.mul, XReal.inf_of_sign, ha, ne_of_gt ha]

theorem fin_mul_ninf_pos {a : ℝ} (ha : 0 < a) : fin a * ninf = ninf := by
  show XReal.mul (fin a) ninf = _
  have h : ¬ 0 < -a := by linarith
  simp [XReal.mul, XReal.inf_of_sign, h, ne_of_gt ha]

theorem pinf_div_fin_pos {a : ℝ} (ha : 0 < a) : pinf / fin a = pinf := by
  show XReal.div pinf (fin a) = _
  simp [XReal.div, le_of_lt ha]

theorem logf_pinf : FloatOps.logf pinf = pinf := rfl

theorem logf_zero : FloatOps.logf (fin 0) = ninf := by
  show XReal.log (fin 0) = _
  simp [XReal.log]

theorem fin_add_pinf (a : ℝ) : fin a + pinf = pinf := rfl

theorem fin_add_ninf (a : ℝ) : fin a + ninf = ninf := rfl

theorem fin_div_pinf (a : ℝ) : fin a / pinf = fin 0 := rfl

theorem fin_div_ninf (a : ℝ) : fin a / ninf = fin 0 := rfl

/-- A finite voltage below 0 or above 3.3 makes the argument of `logf` negative, and the
NaN it returns reaches the result. -/
theorem temp_from_voltage_nan (v : ℝ) (h : v < 0 ∨ 3.3 < v) :
    therm_temp_from_voltage (fin v) = nan := by
  have hv : v ≠ 0 := by
    rcases h with h | h
    · exact ne_of_lt h
    · have : (0 : ℝ) < v := by linarith
      exact ne_of_gt this
  have hq : 3.3 / v - 1.0 < 0 := by
    rcases h with h | h
    · have : 3.3 / v < 0 := div_neg_of_pos_of_neg (by norm_num) h
      norm_num
      linarith
    · have hp : (0 : ℝ) < v := by linarith
      have : 3.3 / v < 1 := (div_lt_one hp).mpr h
      norm_num
      linarith
  have hneg : 10000.0 * (3.3 / v - 1.0) / 10000.0 < 0 := by
    have e : (10000.0 : ℝ) * (3.3 / v - 1.0) / 10000.0 = 3.3 / v - 1.0 := by
      field_simp
      ring
    rw [e]
    exact hq
  have h1 : (10000.0 : ℝ) ≠ 0 := by norm_num
  have h2 : (3950.0 : ℝ) ≠ 0 := by norm_num
  simp only [therm_temp_from_voltage, THERM_T_NOMINAL, THERM_BETA, THERM_R_NOMINAL,
    THERM_R_FIXED, THERM_VCC, ofScientific_eq, fin_add_fin, fin_div_fin hv, fin_sub_fin,
    fin_mul_fin, fin_div_fin h1, logf_fin_neg hneg, fin_div_fin h2,
    fin_div_fin t_nom_kelvin_ne_zero, fin_mul_nan, fin_add_nan, fin_div_nan, nan_sub_fin]

/-- At voltage 0 the division gives `+inf` and the result is `0 - 273.15`. -/
theorem temp_from_voltage_zero : therm_temp_from_voltage (fin 0) = fin (-273.15) := by
  have h33 : (0 : ℝ) < 3.3 := by norm_num
  have h1 : (0 : ℝ) < 10000.0 := by norm_num
  have h2 : (3950.0 : ℝ) ≠ 0 := by norm_num
  have h3 : (0 : ℝ) < 1.0 / 3950.0 := by norm_num
  simp only [therm_temp_from_voltage, THERM_T_NOMINAL, THERM_BETA, THERM_R_NOMINAL,
    THERM_R_FIXED, THERM_VCC, ofScientific_eq, fin_add_fin, fin_div_zero_pos h33,
    pinf_sub_fin, fin_mul_pinf_pos h1, pinf_div_fin_pos h1, logf_pinf, fin_div_fin h2,
    fin_mul_pinf_pos h3, fin_div_fin t_nom_kelvin_ne_zero, fin_add_pinf, fin_div_pinf,
    fin_sub_fin]
  congr 1
  norm_num

/-- At voltage 3.3 the resistance is 0, `logf` gives `-inf` and the result is
`0 - 273.15`. -/
theorem temp_from_voltage_vcc : therm_temp_from_voltage (fin 3.3) = fin (-273.15) := by
  have h33 : (3.3 : ℝ) ≠ 0 := by norm_num
  have h1 : (10000.0 : ℝ) ≠ 0 := by norm_num
  have h2 : (3950.0 : ℝ) ≠ 0 := by norm_num
  have h3 : (0 : ℝ) < 1.0 / 3950.0 := by norm_num
  have e : (10000.0 : ℝ) * (3.3 / 3.3 - 1.0) / 10000.0 = 0 := by norm_num
  simp only [therm_temp_from_voltage, THERM_T_NOMINAL, THERM_BETA, THERM_R_NOMINAL,
    THERM_R_FIXED, THERM_VCC, ofScientific_eq, fin_add_fin, fin_div_fin h33, fin_sub_fin,
    fin_mul_fin, fin_div_fin h1, e, logf_zero, fin_div_fin h2, fin_mul_ninf_pos h3,
    fin_div_fin t_nom_kelvin_ne_zero, fin_add_ninf, fin_div_ninf]
  congr 1
  norm_num

end XReal

/-! ## Claims -/

/-- C1: in every state reachable from `thermistor_sim_init` by calls of `thermistor_set_temp`,
`thermistor_set_all_temp`, `thermistor_set_gradient` and `thermistor_sweep_channel` with
arbitrary arguments, every channel stores the duty derived from its stored temperature; and
right after `thermistor_sim_init` every channel holds temperature 25 and the duty of 25.
Holds for every float type. -/
theorem reachable_duty_invariant {F : Type} [FloatOps F] (st : Sim F) (h : Reachable st)
    (st0 : Sim F) (i : Fin NUM_CHANNELS) :
    (st.channels i).current_duty = therm_duty_from_temp (st.channels i).current_temp
    ∧ ((thermistor_sim_init st0).channels i).current_temp = 25.0
    ∧ ((thermistor_sim_init st0).channels i).current_duty = therm_duty_from_temp 25.0 := by
  refine ⟨reachable_consistent st h i, ?_, ?_⟩
  · rw [sim_init_channels]
  · rw [sim_init_channels]

/-- Witness of C1: the state after init, a gradient, an invalid and a valid single set. -/
theorem reachable_duty_invariant_witness :
    Reachable (thermistor_set_temp 3 (80.0 : XReal)
      (thermistor_set_temp 255 (10.0 : XReal)
        (thermistor_set_gradient (0.0 : XReal) 100.0 (thermistor_sim_init boot_state)).2).2).2
    ∧ (((thermistor_set_temp 3 (80.0 : XReal)
      (thermistor_set_temp 255 (10.0 : XReal)
        (thermistor_set_gradient (0.0 : XReal) 100.0
          (thermistor_sim_init boot_state)).2).2).2.channels 3).current_duty
        = therm_duty_from_temp (((thermistor_set_temp 3 (80.0 : XReal)
      (thermistor_set_temp 255 (10.0 : XReal)
        (thermistor_set_gradient (0.0 : XReal) 100.0
          (thermistor_sim_init boot_state)).2).2).2.channels 3).current_temp)
      ∧ ((thermistor_sim_init (boot_state : Sim XReal)).channels 3).current_temp = 25.0
      ∧ ((thermistor_sim_init (boot_state : Sim XReal)).channels 3).current_duty
          = therm_duty_from_temp 25.0) :=
  ⟨Reachable.set_temp _ _ _ (Reachable.set_temp _ _ _
      (Reachable.set_gradient _ _ _ (Reachable.init _))),
   reachable_duty_invariant _
     (Reachable.set_temp _ _ _ (Reachable.set_temp _ _ _
      (Reachable.set_gradient _ _ _ (Reachable.init _)))) boot_state 3⟩

/-- C2: for every channel argument `c >= 41` (in particular 41..255, the `uint8_t` values)
and every temperature, `thermistor_set_temp` returns `-EINVAL` and the state after the call,
channel table included, is the state before it. -/
theorem set_temp_invalid_channel {F : Type} [FloatOps F] (c : Nat) (temp : F) (st : Sim F)
    (hc : NUM_CHANNELS ≤ c) :
    (thermistor_set_temp c temp st).1 = -EINVAL
    ∧ (thermistor_set_temp c temp st).1 < 0
    ∧ (thermistor_set_temp c temp st).2 = st
    ∧ (thermistor_set_temp c temp st).2.channels = st.channels := by
  rw [set_temp_invalid c temp st hc]
  refine ⟨rfl, ?_, rfl, rfl⟩
  show -EINVAL < 0
  unfold EINVAL
  decide

/-- Witness of C2: channel 255, the value `-1` arrives as. -/
theorem set_temp_invalid_channel_witness :
    NUM_CHANNELS ≤ 255
    ∧ (thermistor_set_temp 255 (25.0 : XReal) boot_state).1 = -EINVAL
    ∧ (thermistor_set_temp 255 (25.0 : XReal) boot_state).1 < 0
    ∧ (thermistor_set_temp 255 (25.0 : XReal) boot_state).2 = boot_state
    ∧ (thermistor_set_temp 255 (25.0 : XReal) boot_state).2.channels
        = (boot_state : Sim XReal).channels :=
  ⟨by decide, set_temp_invalid_channel 255 25.0 boot_state (by decide)⟩

/-- C3: for every channel `c < 41` and every temperature `t`, `thermistor_set_temp c t`
returns 0, leaves channel `c` with `current_temp = t` and
`current_duty = therm_duty_from_temp t` (its other fields untouched), and leaves the record
of every other channel unchanged. -/
theorem set_temp_valid_channel {F : Type} [FloatOps F] (c : Nat) (t : F) (st : Sim F)
    (hc : c < NUM_CHANNELS) :
    (thermistor_set_temp c t st).1 = 0
    ∧ (thermistor_set_temp c t st).2.channels ⟨c, hc⟩ =
        { st.channels ⟨c, hc⟩ with current_temp := t,
                                   current_duty := therm_duty_from_temp t }
    ∧ ∀ j : Fin NUM_CHANNELS, j.val ≠ c →
        (thermistor_set_temp c t st).2.channels j = st.channels j := by
  rw [set_temp_valid c t st hc]
  refine ⟨rfl, channels_store_same st.channels t _ ⟨c, hc⟩, fun j hj => ?_⟩
  exact channels_store_other st.channels c t _ j hj

/-- Witness of C3: channel 40 set to 60 degrees. -/
theorem set_temp_valid_channel_witness :
    40 < NUM_CHANNELS
    ∧ (thermistor_set_temp 40 (60.0 : XReal) boot_state).1 = 0
    ∧ (thermistor_set_temp 40 (60.0 : XReal) boot_state).2.channels ⟨40, by decide⟩ =
        { (boot_state : Sim XReal).channels ⟨40, by decide⟩ with
            current_temp := 60.0, current_duty := therm_duty_from_temp 60.0 }
    ∧ ∀ j : Fin NUM_CHANNELS, j.val ≠ 40 →
        (thermistor_set_temp 40 (60.0 : XReal) boot_state).2.channels j
          = (boot_state : Sim XReal).channels j :=
  ⟨by decide, set_temp_valid_channel 40 60.0 boot_state (by decide)⟩

/-- C4: at the nominal point `t = 25` the model returns exact values:
`therm_resistance_from_temp(25)` is `THERM_R_NOMINAL` (10000), `therm_voltage_from_temp(25)`
is `THERM_VCC / 2` (1.65) and `therm_duty_from_temp(25)` is 50. -/
theorem nominal_point :
    therm_resistance_from_temp (25.0 : XReal) = THERM_R_NOMINAL
    ∧ therm_resistance_from_temp (25.0 : XReal) = XReal.fin 10000
    ∧ therm_voltage_from_temp (25.0 : XReal) = THERM_VCC / 2.0
    ∧ therm_voltage_from_temp (25.0 : XReal) = XReal.fin 1.65
    ∧ therm_duty_from_temp (25.0 : XReal) = XReal.fin 50 := by
  have hr : XReal.resistance_real 25.0 = 10000 := by
    unfold XReal.resistance_real
    rw [sub_self, mul_zero, Real.exp_zero]
    norm_num
  have hv : XReal.voltage_real 10000 = 1.65 := by
    unfold XReal.voltage_real
    norm_num
  have hd : XReal.duty_real 1.65 = 50 := by
    unfold XReal.duty_real
    norm_num
  have h2 : (2.0 : ℝ) ≠ 0 := by norm_num
  have e : (25.0 : XReal) = XReal.fin 25.0 := rfl
  rw [e, XReal.voltage_from_temp_fin _ XReal.t_nom_kelvin_ne_zero,
    XReal.duty_from_temp_fin _ XReal.t_nom_kelvin_ne_zero,
    XReal.resistance_fin _ XReal.t_nom_kelvin_ne_zero]
  have hr2 : (10000.0 : ℝ) * Real.exp (3950.0 * (1.0 / (25.0 + 273.15) - 1.0 / (25.0 + 273.15)))
      = 10000 := hr
  rw [hr2, hr, hv, hd]
  refine ⟨?_, rfl, ?_, rfl, rfl⟩
  · simp only [THERM_R_NOMINAL, XReal.ofScientific_eq]
    norm_num
  · simp only [THERM_VCC, XReal.ofScientific_eq, XReal.fin_div_fin h2]
    norm_num

/-- C7, refuted as stated: called with the voltage 0.0, `therm_temp_from_voltage` signals no
error; it returns the ordinary finite float -273.15 (and not NaN). -/
theorem temp_from_voltage_zero_no_error :
    therm_temp_from_voltage (0.0 : XReal) = XReal.fin (-273.15)
    ∧ therm_temp_from_voltage (0.0 : XReal) ≠ XReal.nan := by
  have e : (0.0 : XReal) = XReal.fin 0 := by
    rw [XReal.ofScientific_eq]
    congr 1
    norm_num
  rw [e, XReal.temp_from_voltage_zero]
  exact ⟨rfl, fun h => XReal.noConfusion h⟩

/-- C7, amended: `therm_temp_from_voltage` makes no domain check and has no error result.
For every finite voltage `v < 0` or `v > 3.3` the float it returns is NaN, for an infinite
or NaN voltage also, and at `v = 0.0` and `v = THERM_VCC` it returns -273.15. -/
theorem temp_from_voltage_outside_domain (v : ℝ) (h : v < 0 ∨ 3.3 < v) :
    therm_temp_from_voltage (XReal.fin v) = XReal.nan
    ∧ therm_temp_from_voltage XReal.pinf = XReal.nan
    ∧ therm_temp_from_voltage XReal.ninf = XReal.nan
    ∧ therm_temp_from_voltage XReal.nan = XReal.nan
    ∧ therm_temp_from_voltage (THERM_VCC : XReal) = XReal.fin (-273.15)
    ∧ therm_temp_from_voltage (XReal.fin 0) = XReal.fin (-273.15) := by
  have hm1 : (10000.0 : ℝ) * (0 - 1.0) / 10000.0 < 0 := by norm_num
  have h1 : (10000.0 : ℝ) ≠ 0 := by norm_num
  have h2 : (3950.0 : ℝ) ≠ 0 := by norm_num
  refine ⟨XReal.temp_from_voltage_nan v h, ?_, ?_, ?_, XReal.temp_from_voltage_vcc,
    XReal.temp_from_voltage_zero⟩
  · simp only [therm_temp_from_voltage, THERM_T_NOMINAL, THERM_BETA, THERM_R_NOMINAL,
      THERM_R_FIXED, THERM_VCC, XReal.ofScientific_eq, XReal.fin_add_fin, XReal.fin_div_pinf,
      XReal.fin_sub_fin, XReal.fin_mul_fin, XReal.fin_div_fin h1, XReal.logf_fin_neg hm1,
      XReal.fin_div_fin h2, XReal.fin_div_fin XReal.t_nom_kelvin_ne_zero, XReal.fin_mul_nan,
      XReal.fin_add_nan, XReal.fin_div_nan, XReal.nan_sub_fin]
  · simp only [therm_temp_from_voltage, THERM_T_NOMINAL, THERM_BETA, THERM_R_NOMINAL,
      THERM_R_FIXED, THERM_VCC, XReal.ofScientific_eq, XReal.fin_add_fin, XReal.fin_div_ninf,
      XReal.fin_sub_fin, XReal.fin_mul_fin, XReal.fin_div_fin h1, XReal.logf_fin_neg hm1,
      XReal.fin_div_fin h2, XReal.fin_div_fin XReal.t_nom_kelvin_ne_zero, XReal.fin_mul_nan,
      XReal.fin_add_nan, XReal.fin_div_nan, XReal.nan_sub_fin]
  · simp only [therm_temp_from_voltage, THERM_T_NOMINAL, THERM_BETA, THERM_R_NOMINAL,
      THERM_R_FIXED, THERM_VCC, XReal.ofScientific_eq, XReal.fin_add_fin,
      XReal.fin_div_fin h2, XReal.fin_div_fin XReal.t_nom_kelvin_ne_zero, XReal.fin_mul_nan,
      XReal.fin_add_nan, XReal.fin_div_nan, XReal.nan_sub_fin, XReal.nan_div_fin,
      XReal.logf_nan]

/-- Witness of the amended C7: the voltage 5 V, above `THERM_VCC`. -/
theorem temp_from_voltage_outside_domain_witness :
    ((5 : ℝ) < 0 ∨ (3.3 : ℝ) < 5)
    ∧ therm_temp_from_voltage (XReal.fin 5) = XReal.nan
    ∧ therm_temp_from_voltage XReal.pinf = XReal.nan
    ∧ therm_temp_from_voltage XReal.ninf = XReal.nan
    ∧ therm_temp_from_voltage XReal.nan = XReal.nan
    ∧ therm_temp_from_voltage (THERM_VCC : XReal) = XReal.fin (-273.15)
    ∧ therm_temp_from_voltage (XReal.fin 0) = XReal.fin (-273.15) :=
  ⟨Or.inr (by norm_num), temp_from_voltage_outside_domain 5 (Or.inr (by norm_num))⟩

/-- C10: for every temperature `t` and every starting state, `thermistor_set_all_temp t`
returns 0 and leaves every channel with `current_temp = t` and
`current_duty = therm_duty_from_temp t`; its final state is the one obtained by calling
`thermistor_set_temp i t` for `i = 0, 1, ..., 40` in ascending order.  Holds for every float
type. -/
theorem set_all_temp_uniform {F : Type} [FloatOps F] (t : F) (st : Sim F) :
    (thermistor_set_all_temp t st).1 = 0
    ∧ (∀ i : Fin NUM_CHANNELS,
        ((thermistor_set_all_temp t st).2.channels i).current_temp = t
        ∧ ((thermistor_set_all_temp t st).2.channels i).current_duty
            = therm_duty_from_temp t)
    ∧ (thermistor_set_all_temp t st).2 =
        (List.range NUM_CHANNELS).foldl (fun s i => (thermistor_set_temp i t s).2) st := by
  unfold thermistor_set_all_temp
  rw [set_all_loop_eq t NUM_CHANNELS 0 st (by simp)]
  refine ⟨rfl, ?_, ?_⟩
  · intro i
    simp only
    rw [fold_set_temp_channels (fun _ => t) NUM_CHANNELS 0 st (by simp) i]
    have hi : 0 ≤ i.val ∧ i.val < 0 + NUM_CHANNELS := ⟨Nat.zero_le _, by simp⟩
    rw [if_pos hi]
    exact ⟨rfl, rfl⟩
  · rw [List.range_eq_range']

/-! ## The sweep loop: wrap-around, delays, invalid channel -/

/-- With `steps = 2^32 - 1` the condition `i <= steps` holds for every 32-bit `i`, so no
amount of fuel lets the loop return. -/
theorem sweep_loop_max_steps {F : Type} [FloatOps F] (c : Nat) (t_start t_end : F)
    (delay_ms : Nat) :
    ∀ (fuel i : Nat) (st : Sim F), i < 2 ^ 32 →
      thermistor_sweep_channel_loop c t_start t_end delay_ms (2 ^ 32 - 1) fuel i st
        = Outcome.running := by
  intro fuel
  induction fuel with
  | zero =>
    intro i st _
    rfl
  | succ fuel ih =>
    intro i st hi
    have h1 : i ≤ 2 ^ 32 - 1 := by omega
    rw [thermistor_sweep_channel_loop, if_pos h1]
    exact ih _ _ (Nat.mod_lt _ (by decide))

theorem set_temp_slept {F : Type} [FloatOps F] (c : Nat) (t : F) (st : Sim F) :
    (thermistor_set_temp c t st).2.slept = st.slept := by
  by_cases hc : c < NUM_CHANNELS
  · rw [set_temp_valid c t st hc]
  · rw [set_temp_invalid c t st (Nat.le_of_not_lt hc)]

theorem sweep_body_slept {F : Type} [FloatOps F] (c : Nat) (t_start t_end : F)
    (delay_ms steps i : Nat) (st : Sim F) :
    (sweep_body c t_start t_end delay_ms steps i st).slept = st.slept ++ [delay_ms] := by
  unfold sweep_body k_msleep
  simp only [set_temp_slept]

/-- The sleeps of the sweep body run for `n` samples, whatever the channel. -/
theorem fold_sweep_slept {F : Type} [FloatOps F] (c : Nat) (t_start t_end : F)
    (delay_ms steps : Nat) :
    ∀ (n i : Nat) (st : Sim F),
      ((List.range' i n).foldl
          (fun s k => sweep_body c t_start t_end delay_ms steps k s) st).slept =
        st.slept ++ List.replicate n delay_ms := by
  intro n
  induction n with
  | zero =>
    intro i st
    simp
  | succ n ih =>
    intro i st
    rw [List.range'_succ, List.foldl_cons, ih, sweep_body_slept]
    simp [List.replicate_succ]

theorem sweep_body_invalid {F : Type} [FloatOps F] (c : Nat) (t_start t_end : F)
    (delay_ms steps i : Nat) (st : Sim F) (hc : NUM_CHANNELS ≤ c) :
    sweep_body c t_start t_end delay_ms steps i st
      = { st with slept := st.slept ++ [delay_ms] } := by
  unfold sweep_body
  rw [set_temp_invalid c _ st hc]
  rfl

/-- On an invalid channel the sweep body only sleeps. -/
theorem fold_sweep_invalid {F : Type} [FloatOps F] (c : Nat) (t_start t_end : F)
    (delay_ms steps : Nat) (hc : NUM_CHANNELS ≤ c) :
    ∀ (n i : Nat) (st : Sim F),
      (List.range' i n).foldl
          (fun s k => sweep_body c t_start t_end delay_ms steps k s) st =
        { st with slept := st.slept ++ List.replicate n delay_ms } := by
  intro n
  induction n with
  | zero =>
    intro i st
    simp
  | succ n ih =>
    intro i st
    rw [List.range'_succ, List.foldl_cons, ih, sweep_body_invalid c _ _ _ _ _ _ hc]
    simp [List.replicate_succ]

theorem replicate_delay_sum (steps duration_ms : Nat) :
    (List.replicate (steps + 1) (duration_ms / steps)).sum
      = (duration_ms - duration_ms % steps) + duration_ms / steps := by
  rw [List.sum_replicate, smul_eq_mul, Nat.add_mul, one_mul]
  have h := Nat.div_add_mod duration_ms steps
  omega

/-- C11, failing input `steps = 4294967295`: for every channel, temperatures, duration and
starting state, `thermistor_sweep_channel` has not returned after any number of iterations,
because `i <= steps` holds for every `uint32_t` value of `i` and `i++` wraps to 0. -/
theorem sweep_max_steps_never_returns {F : Type} [FloatOps F] (fuel c : Nat)
    (t_start t_end : F) (duration_ms : Nat) (st : Sim F) :
    thermistor_sweep_channel fuel c t_start t_end duration_ms 4294967295 st
      = Outcome.running
    ∧ ∀ st1 : Sim F,
        thermistor_sweep_channel fuel c t_start t_end duration_ms 4294967295 st
          ≠ Outcome.returned st1 := by
  have h : thermistor_sweep_channel fuel c t_start t_end duration_ms 4294967295 st
      = Outcome.running := by
    unfold thermistor_sweep_channel
    rw [if_neg (by decide)]
    exact sweep_loop_max_steps c t_start t_end _ fuel 0 st (by decide)
  refine ⟨h, fun st1 h1 => ?_⟩
  rw [h] at h1
  exact Outcome.noConfusion h1

/-- C12, what the code does: for `0 < steps < 2^32 - 1` the sweep returns after sleeping
`steps + 1` times `duration_ms / steps`, once after every sample, the last one included.
The delays sum to `(duration_ms - duration_ms % steps) + duration_ms / steps`, one delay
more than the claim states. -/
theorem sweep_total_delay {F : Type} [FloatOps F] (c steps duration_ms fuel : Nat)
    (t_start t_end : F) (st : Sim F) (h0 : 0 < steps) (h1 : steps < 2 ^ 32 - 1)
    (hf : steps + 2 ≤ fuel) :
    ∃ st1 : Sim F,
      thermistor_sweep_channel fuel c t_start t_end duration_ms steps st
        = Outcome.returned st1
      ∧ st1.slept = st.slept ++ List.replicate (steps + 1) (duration_ms / steps)
      ∧ (List.replicate (steps + 1) (duration_ms / steps)).sum
          = (duration_ms - duration_ms % steps) + duration_ms / steps := by
  have hrun : thermistor_sweep_channel fuel c t_start t_end duration_ms steps st
      = Outcome.returned ((List.range' 0 (steps + 1)).foldl
          (fun s k => sweep_body c t_start t_end (duration_ms / steps) steps k s) st) := by
    unfold thermistor_sweep_channel
    rw [if_neg (Nat.pos_iff_ne_zero.mp h0)]
    exact sweep_loop_eq c _ _ _ steps h1 (steps + 1) 0 fuel st (by omega) (by omega)
  exact ⟨_, hrun,
    fold_sweep_slept c t_start t_end (duration_ms / steps) steps (steps + 1) 0 st,
    replicate_delay_sum steps duration_ms⟩

/-- C12 at the failing input `duration_ms = 1000`, `steps = 4`: five sleeps of 250 ms,
1250 ms in total, more than the 1000 ms asked for. -/
theorem sweep_total_delay_witness :
    (∃ st1 : Sim XReal,
      thermistor_sweep_channel 6 0 (XReal.fin 0) (XReal.fin 100) 1000 4 boot_state
        = Outcome.returned st1
      ∧ st1.slept = (boot_state : Sim XReal).slept ++ List.replicate (4 + 1) (1000 / 4)
      ∧ (List.replicate (4 + 1) (1000 / 4)).sum = (1000 - 1000 % 4) + 1000 / 4)
    ∧ (1000 - 1000 % 4) + 1000 / 4 = 1250 ∧ 1000 - 1000 % 4 = 1000 :=
  ⟨sweep_total_delay 0 4 1000 6 (XReal.fin 0) (XReal.fin 100) boot_state (by decide)
    (by decide) (by decide), by decide, by decide⟩

/-- C15, refuted as stated: a sweep on the invalid channel 41 returns like any other sweep,
with no result value, after all five sleeps; the only trace is the time slept. -/
theorem sweep_invalid_channel_silent :
    thermistor_sweep_channel 6 41 (XReal.fin 0) (XReal.fin 100) 1000 4 boot_state
      = Outcome.returned
          { (boot_state : Sim XReal) with slept := [250, 250, 250, 250, 250] } := by
  unfold thermistor_sweep_channel
  rw [if_neg (by decide),
    sweep_loop_eq 41 _ _ _ 4 (by decide) (4 + 1) 0 6 boot_state (by decide) (by decide),
    fold_sweep_invalid 41 _ _ _ 4 (by decide) (4 + 1) 0 boot_state]
  rfl

/-- C15, amended: for every channel `c >= 41` and `0 < steps < 2^32 - 1`,
`thermistor_sweep_channel` reports nothing (it returns `void` and drops the `-EINVAL` of
every `thermistor_set_temp` call); it returns after all `steps + 1` sleeps and leaves the
channel table and the console unchanged. -/
theorem sweep_invalid_channel {F : Type} [FloatOps F] (c steps duration_ms fuel : Nat)
    (t_start t_end : F) (st : Sim F) (hc : NUM_CHANNELS ≤ c) (h0 : 0 < steps)
    (h1 : steps < 2 ^ 32 - 1) (hf : steps + 2 ≤ fuel) :
    ∃ st1 : Sim F,
      thermistor_sweep_channel fuel c t_start t_end duration_ms steps st
        = Outcome.returned st1
      ∧ st1.channels = st.channels
      ∧ st1.console = st.console
      ∧ st1.slept = st.slept ++ List.replicate (steps + 1) (duration_ms / steps) := by
  have hrun : thermistor_sweep_channel fuel c t_start t_end duration_ms steps st
      = Outcome.returned
          { st with slept := st.slept ++ List.replicate (steps + 1) (duration_ms / steps) } := by
    unfold thermistor_sweep_channel
    rw [if_neg (Nat.pos_iff_ne_zero.mp h0),
      sweep_loop_eq c _ _ _ steps h1 (steps + 1) 0 fuel st (by omega) (by omega),
      fold_sweep_invalid c _ _ _ steps hc (steps + 1) 0 st]
  exact ⟨_, hrun, rfl, rfl, rfl⟩

/-- Witness of the amended C15: channel 255, four steps over 1000 ms. -/
theorem sweep_invalid_channel_witness :
    ∃ st1 : Sim XReal,
      thermistor_sweep_channel 6 255 (XReal.fin 0) (XReal.fin 100) 1000 4 boot_state
        = Outcome.returned st1
      ∧ st1.channels = (boot_state : Sim XReal).channels
      ∧ st1.console = (boot_state : Sim XReal).console
      ∧ st1.slept = (boot_state : Sim XReal).slept ++ List.replicate (4 + 1) (1000 / 4) :=
  sweep_invalid_channel 255 4 1000 6 (XReal.fin 0) (XReal.fin 100) boot_state (by decide)
    (by decide) (by decide) (by decide)

/-! ## Narrowing of the channel argument, batch operations -/

/-- The console after setting the valid channels `i, ..., i+n-1` has `n` more lines. -/
theorem fold_set_temp_console_length {F : Type} [FloatOps F] (f : Nat → F) :
    ∀ (n i : Nat) (st : Sim F), i + n ≤ NUM_CHANNELS →
      ((List.range' i n).foldl
          (fun s k => (thermistor_set_temp k (f k) s).2) st).console.length
        = st.console.length + n := by
  intro n
  induction n with
  | zero =>
    intro i st _
    rfl
  | succ n ih =>
    intro i st h
    have h41 := num_channels_eq
    have hi : i < NUM_CHANNELS := by omega
    rw [List.range'_succ, List.foldl_cons, ih (i + 1) _ (by omega),
      set_temp_valid i (f i) st hi]
    simp only [List.length_append, List.length_singleton]
    omega

/-- C16, refuted as stated: the integer 256 lies outside `[0, 41)`, is narrowed to 0, and
`thermistor_set_temp` then succeeds and overwrites channel 0. -/
theorem set_temp_256_sets_channel_zero :
    ¬ ((0 : Int) ≤ 256 ∧ (256 : Int) < 41)
    ∧ uint8_of_int 256 = 0
    ∧ (thermistor_set_temp (uint8_of_int 256) (XReal.fin 30) boot_state).1 = 0
    ∧ ((thermistor_set_temp (uint8_of_int 256) (XReal.fin 30) boot_state).2.channels
        ⟨0, by decide⟩).current_temp = XReal.fin 30 := by
  have e : uint8_of_int 256 = 0 := by decide
  rw [e, set_temp_valid 0 _ _ (by decide)]
  refine ⟨by decide, rfl, rfl, ?_⟩
  simp [channels_store]

/-- C16, amended: for every integer `n` whose narrowed value `n mod 2^8` is at least 41
(such as -1, narrowed to 255, and 41) `thermistor_set_temp` fails with `-EINVAL` and leaves
the state unchanged; and the shell command `cmd_therm_set` rejects every integer outside
`[0, 41)` with `-EINVAL` and no change, before `thermistor_set_temp` is called. -/
theorem set_temp_narrowed_invalid {F : Type} [FloatOps F] (n : Int) (temp : F) (st : Sim F)
    (h : NUM_CHANNELS ≤ uint8_of_int n) :
    thermistor_set_temp (uint8_of_int n) temp st = (-EINVAL, st)
    ∧ uint8_of_int (-1) = 255 ∧ uint8_of_int 41 = 41
    ∧ ∀ m : Int, (m < 0 ∨ (NUM_CHANNELS : Int) ≤ m) →
        cmd_therm_set m temp st = (-EINVAL, st) := by
  refine ⟨set_temp_invalid _ temp st h, by decide, by decide, fun m hm => ?_⟩
  unfold cmd_therm_set
  rw [if_pos hm]

/-- Witness of the amended C16: the argument -1. -/
theorem set_temp_narrowed_invalid_witness :
    NUM_CHANNELS ≤ uint8_of_int (-1)
    ∧ thermistor_set_temp (uint8_of_int (-1)) (XReal.fin 25) boot_state
        = (-EINVAL, boot_state)
    ∧ uint8_of_int (-1) = 255 ∧ uint8_of_int 41 = 41
    ∧ ∀ m : Int, (m < 0 ∨ (NUM_CHANNELS : Int) ≤ m) →
        cmd_therm_set m (XReal.fin 25) boot_state = (-EINVAL, boot_state) :=
  ⟨by decide, set_temp_narrowed_invalid (-1) (XReal.fin 25) boot_state (by decide)⟩

/-- C17: the stop-on-first-failure branch of the batch operations is never taken.  Every
loop index `i < 41` is unchanged by the narrowing to `uint8_t` and passes the channel check
(the call returns 0, so `ret < 0` is false); `thermistor_set_all_temp` and
`thermistor_set_gradient` therefore return 0 after all 41 calls, in ascending order, each
printing its line.  Holds for every float type. -/
theorem batch_never_stops_early {F : Type} [FloatOps F] (temp t_min t_max : F) (st : Sim F) :
    (∀ i : Nat, i < NUM_CHANNELS → ∀ (t : F) (s : Sim F),
        i % 256 = i ∧ (thermistor_set_temp (i % 256) t s).1 = 0
        ∧ ¬ (thermistor_set_temp (i % 256) t s).1 < 0)
    ∧ thermistor_set_all_temp temp st =
        (0, (List.range NUM_CHANNELS).foldl (fun s i => (thermistor_set_temp i temp s).2) st)
    ∧ (thermistor_set_all_temp temp st).2.console.length = st.console.length + NUM_CHANNELS
    ∧ thermistor_set_gradient t_min t_max st =
        (0, (List.range NUM_CHANNELS).foldl
              (fun s i => (thermistor_set_temp i (gradient_temp t_min t_max i) s).2) st)
    ∧ (thermistor_set_gradient t_min t_max st).2.console.length
        = st.console.length + NUM_CHANNELS := by
  have h41 := num_channels_eq
  refine ⟨?_, ?_, ?_, ?_, ?_⟩
  · intro i hi t s
    have hm : i % 256 = i := Nat.mod_eq_of_lt (by omega)
    rw [hm, set_temp_valid i t s hi]
    exact ⟨rfl, rfl, lt_irrefl (0 : Int)⟩
  · unfold thermistor_set_all_temp
    rw [set_all_loop_eq temp NUM_CHANNELS 0 st (by simp), List.range_eq_range']
  · unfold thermistor_set_all_temp
    rw [set_all_loop_eq temp NUM_CHANNELS 0 st (by simp)]
    exact fold_set_temp_console_length (fun _ => temp) NUM_CHANNELS 0 st (by simp)
  · unfold thermistor_set_gradient
    rw [set_gradient_loop_eq t_min t_max NUM_CHANNELS 0 st (by simp), List.range_eq_range']
  · unfold thermistor_set_gradient
    rw [set_gradient_loop_eq t_min t_max NUM_CHANNELS 0 st (by simp)]
    exact fold_set_temp_console_length (gradient_temp t_min t_max) NUM_CHANNELS 0 st
      (by simp)

/-! ## Range of the conversion model -/

namespace XReal

theorem expf_pinf : FloatOps.expf pinf = pinf := rfl

theorem pinf_add_fin (a : ℝ) : pinf + fin a = pinf := rfl

/-- At -273.15 the absolute temperature is 0, `1.0 / 0` is `+inf` and so is the
resistance. -/
theorem resistance_abs_zero : therm_resistance_from_temp (fin (-273.15)) = pinf := by
  have e : (-273.15 : ℝ) + 273.15 = 0 := by norm_num
  have h1 : (0 : ℝ) < 1.0 := by norm_num
  have h2 : (0 : ℝ) < 3950.0 := by norm_num
  have h3 : (0 : ℝ) < 10000.0 := by norm_num
  simp only [therm_resistance_from_temp, THERM_T_NOMINAL, THERM_BETA, THERM_R_NOMINAL,
    ofScientific_eq, fin_add_fin, e, fin_div_zero_pos h1, fin_div_fin t_nom_kelvin_ne_zero,
    pinf_sub_fin, fin_mul_pinf_pos h2, expf_pinf, fin_mul_pinf_pos h3]

theorem voltage_abs_zero : therm_voltage_from_temp (fin (-273.15)) = fin 0 := by
  unfold therm_voltage_from_temp
  simp only [resistance_abs_zero, therm_voltage_from_resistance, THERM_VCC, THERM_R_FIXED,
    ofScientific_eq, pinf_add_fin, fin_div_pinf, fin_mul_fin, mul_zero]

theorem duty_abs_zero : therm_duty_from_temp (fin (-273.15)) = fin 0 := by
  have h : (3.3 : ℝ) ≠ 0 := by norm_num
  unfold therm_duty_from_temp
  simp only [voltage_abs_zero, therm_duty_from_voltage, THERM_VCC, ofScientific_eq,
    fin_div_fin h, fin_mul_fin, zero_div, zero_mul]

end XReal

/-- C13, refuted as stated: at the temperature -273.15 the resistance is `+inf` and the
voltage and the duty are exactly 0, so the duty is not strictly above 0. -/
theorem duty_zero_at_absolute_zero :
    therm_resistance_from_temp (XReal.fin (-273.15)) = XReal.pinf
    ∧ therm_voltage_from_temp (XReal.fin (-273.15)) = XReal.fin 0
    ∧ therm_duty_from_temp (XReal.fin (-273.15)) = XReal.fin 0
    ∧ ¬ (XReal.fin 0 < therm_duty_from_temp (XReal.fin (-273.15))) := by
  refine ⟨XReal.resistance_abs_zero, XReal.voltage_abs_zero, XReal.duty_abs_zero, ?_⟩
  rw [XReal.duty_abs_zero]
  exact fun h => lt_irrefl (0 : ℝ) ((XReal.fin_lt_fin 0 0).mp h)

/-! ## Binary32 arithmetic: rounding is monotone -/

namespace B32

theorem rhe_ge (a d : Nat) : a / d ≤ rhe a d := by
  unfold rhe
  split_ifs <;> omega

theorem rhe_le (a d : Nat) : rhe a d ≤ a / d + 1 := by
  unfold rhe
  split_ifs <;> omega

theorem rhe_lower (a d G : Nat) (hd : 0 < d) (h : G * d ≤ a) : G ≤ rhe a d :=
  le_trans ((Nat.le_div_iff_mul_le hd).mpr h) (rhe_ge a d)

theorem rhe_upper (a d G : Nat) (hd : 0 < d) (h : a ≤ G * d) : rhe a d ≤ G := by
  by_cases hq : a / d < G
  · exact le_trans (rhe_le a d) hq
  · have hq2 : G ≤ a / d := Nat.le_of_not_lt hq
    have h1 : G * d ≤ a := (Nat.le_div_iff_mul_le hd).mp hq2
    have h2 : a = G * d := le_antisymm h h1
    have h3 : a % d = 0 := by rw [h2]; exact Nat.mul_mod_left G d
    have h4 : a / d = G := by rw [h2]; exact Nat.mul_div_cancel G hd
    unfold rhe
    rw [h3, h4]
    simp [hd]

theorem rhe_mono (a d a' d' : Nat) (hd : 0 < d) (hd' : 0 < d') (h : a * d' ≤ a' * d) :
    rhe a d ≤ rhe a' d' := by
  have e := Nat.div_add_mod a d
  have e' := Nat.div_add_mod a' d'
  have hr := Nat.mod_lt a hd
  have hr' := Nat.mod_lt a' hd'
  have hq : a / d ≤ a' / d' := by
    rw [Nat.le_div_iff_mul_le hd']
    have h1 : a / d * d ≤ a := Nat.div_mul_le_self a d
    have h2 : a / d * d' * d ≤ a' * d := by
      calc a / d * d' * d = a / d * d * d' := by ring
        _ ≤ a * d' := Nat.mul_le_mul_right d' h1
        _ ≤ a' * d := h
    exact Nat.le_of_mul_le_mul_right h2 hd
  rcases Nat.lt_or_eq_of_le hq with hlt | heq
  · exact le_trans (rhe_le a d) (le_trans hlt (rhe_ge a' d'))
  · have hrr : a % d * d' ≤ a' % d' * d := by
      have h3 : (d * (a / d) + a % d) * d' ≤ (d' * (a' / d') + a' % d') * d := by
        rw [e, e']; exact h
      rw [← heq] at h3
      nlinarith
    unfold rhe
    rw [← heq]
    split_ifs <;> first | omega | (exfalso; nlinarith)

end B32


namespace B32

theorem shiftAux_spec : ∀ (fuel q : Nat), q < 2 ^ 24 * 2 ^ fuel →
    q < 2 ^ (24 + shiftAux fuel q) ∧ (shiftAux fuel q = 0 ∨ 2 ^ (23 + shiftAux fuel q) ≤ q) := by
  intro fuel
  induction fuel with
  | zero =>
    intro q h
    simp only [shiftAux]
    exact ⟨by simpa using h, Or.inl trivial⟩
  | succ fuel ih =>
    intro q h
    by_cases hq : q < 2 ^ 24
    · simp only [shiftAux, if_pos hq]
      exact ⟨by simpa using hq, Or.inl trivial⟩
    · simp only [shiftAux, if_neg hq]
      have h2 : q / 2 < 2 ^ 24 * 2 ^ fuel := by
        rw [Nat.div_lt_iff_lt_mul (by norm_num)]
        calc q < 2 ^ 24 * 2 ^ (fuel + 1) := h
          _ = 2 ^ 24 * 2 ^ fuel * 2 := by ring
      obtain ⟨i1, i2⟩ := ih (q / 2) h2
      refine ⟨?_, Or.inr ?_⟩
      · have : q / 2 < 2 ^ (24 + shiftAux fuel (q / 2)) := i1
        rw [Nat.div_lt_iff_lt_mul (by norm_num)] at this
        calc q < 2 ^ (24 + shiftAux fuel (q / 2)) * 2 := this
          _ = 2 ^ (24 + (shiftAux fuel (q / 2) + 1)) := by ring
      · rcases i2 with i2 | i2
        · rw [i2]
          exact Nat.le_of_not_lt hq
        · have h3 : 2 ^ (23 + shiftAux fuel (q / 2)) * 2 ≤ q := by
            have := Nat.mul_le_mul_right 2 i2
            exact le_trans this (Nat.div_mul_le_self q 2)
          calc 2 ^ (23 + (shiftAux fuel (q / 2) + 1)) = 2 ^ (23 + shiftAux fuel (q / 2)) * 2 := by
                ring
            _ ≤ q := h3

theorem shift_spec (q : Nat) :
    q < 2 ^ (24 + shift q) ∧ (shift q = 0 ∨ 2 ^ (23 + shift q) ≤ q) := by
  unfold shift
  apply shiftAux_spec
  calc q < 2 ^ q := Nat.lt_two_pow q
    _ ≤ 2 ^ 24 * 2 ^ q := Nat.le_mul_of_pos_left _ (by norm_num)

theorem shift_mono {q q' : Nat} (h : q ≤ q') : shift q ≤ shift q' := by
  by_contra hc
  have hlt : shift q' + 1 ≤ shift q := by omega
  obtain ⟨_, a2⟩ := shift_spec q
  obtain ⟨b1, _⟩ := shift_spec q'
  rcases a2 with a2 | a2
  · omega
  · have : 2 ^ (24 + shift q') ≤ 2 ^ (23 + shift q) :=
      Nat.pow_le_pow_right (by norm_num) (by omega)
    omega

theorem div_le_div_cross {a b a' b' : Nat} (hb : 0 < b) (hb' : 0 < b')
    (h : a * b' ≤ a' * b) : a / b ≤ a' / b' := by
  rw [Nat.le_div_iff_mul_le hb']
  have h1 : a / b * b ≤ a := Nat.div_mul_le_self a b
  have h2 : a / b * b' * b ≤ a' * b := by
    calc a / b * b' * b = a / b * b * b' := by ring
      _ ≤ a * b' := Nat.mul_le_mul_right b' h1
      _ ≤ a' * b := h
  exact Nat.le_of_mul_le_mul_right h2 hb

theorem rnd_mono {a b a' b' : Nat} (hb : 0 < b) (hb' : 0 < b') (h : a * b' ≤ a' * b) :
    rnd a b ≤ rnd a' b' := by
  have hq := div_le_div_cross hb hb' h
  have hs := shift_mono hq
  obtain ⟨u1, _⟩ := shift_spec (a / b)
  obtain ⟨_, v2⟩ := shift_spec (a' / b')
  unfold rnd
  rcases Nat.lt_or_eq_of_le hs with hlt | heq
  · have hp : 0 < 2 ^ shift (a / b) := Nat.pow_pos (by norm_num)
    have hp' : 0 < 2 ^ shift (a' / b') := Nat.pow_pos (by norm_num)
    have up : rhe a (b * 2 ^ shift (a / b)) ≤ 2 ^ 24 := by
      apply rhe_upper _ _ _ (Nat.mul_pos hb hp)
      rw [Nat.div_lt_iff_lt_mul hb] at u1
      have : 2 ^ (24 + shift (a / b)) * b = 2 ^ 24 * (b * 2 ^ shift (a / b)) := by ring
      omega
    have lo : 2 ^ 23 ≤ rhe a' (b' * 2 ^ shift (a' / b')) := by
      apply rhe_lower _ _ _ (Nat.mul_pos hb' hp')
      rcases v2 with v2 | v2
      · omega
      · have h1 : 2 ^ (23 + shift (a' / b')) * b' ≤ a' / b' * b' := Nat.mul_le_mul_right b' v2
        have h2 : a' / b' * b' ≤ a' := Nat.div_mul_le_self a' b'
        have : 2 ^ (23 + shift (a' / b')) * b' = 2 ^ 23 * (b' * 2 ^ shift (a' / b')) := by ring
        omega
    calc rhe a (b * 2 ^ shift (a / b)) * 2 ^ shift (a / b)
        ≤ 2 ^ 24 * 2 ^ shift (a / b) := Nat.mul_le_mul_right _ up
      _ = 2 ^ (24 + shift (a / b)) := by ring
      _ ≤ 2 ^ (23 + shift (a' / b')) := Nat.pow_le_pow_right (by norm_num) (by omega)
      _ = 2 ^ 23 * 2 ^ shift (a' / b') := by ring
      _ ≤ rhe a' (b' * 2 ^ shift (a' / b')) * 2 ^ shift (a' / b') := Nat.mul_le_mul_right _ lo
  · rw [← heq]
    have hp : 0 < 2 ^ shift (a / b) := Nat.pow_pos (by norm_num)
    apply Nat.mul_le_mul_right
    apply rhe_mono _ _ _ _ (Nat.mul_pos hb hp) (Nat.mul_pos hb' hp)
    calc a * (b' * 2 ^ shift (a / b)) = a * b' * 2 ^ shift (a / b) := by ring
      _ ≤ a' * b * 2 ^ shift (a / b) := Nat.mul_le_mul_right _ h
      _ = a' * (b * 2 ^ shift (a / b)) := by ring

theorem rnd_idem {n : Nat} (h : n % 2 ^ shift n = 0) : rnd n 1 = n := by
  unfold rnd
  rw [Nat.div_one, one_mul]
  have hp : 0 < 2 ^ shift n := Nat.pow_pos (by norm_num)
  have : rhe n (2 ^ shift n) = n / 2 ^ shift n := by
    unfold rhe
    rw [h]
    simp [hp]
  rw [this]
  exact Nat.div_mul_cancel (Nat.dvd_of_mod_eq_zero h)

theorem rnd_zero (b : Nat) : rnd 0 b = 0 := by
  unfold rnd rhe
  simp


theorem signed_natAbs (s : Int) : signed (decide (s < 0)) s.natAbs = s := by
  unfold signed
  by_cases h : s < 0
  · simp only [h, decide_True, if_true]
    omega
  · simp only [h, decide_False]
    simp only [Bool.false_eq_true, if_false]
    omega

theorem QINF_pos : 0 < QINF := by
  unfold QINF
  positivity

theorem round_spec (neg : Bool) (a b : Nat) :
    (QINF ≤ rnd a b ∧ round neg a b = infS neg) ∨
    (rnd a b < QINF ∧ round neg a b ≠ nan ∧ isInf (round neg a b) = false
      ∧ val (round neg a b) = signed neg (rnd a b)) := by
  by_cases h : QINF ≤ rnd a b
  · left
    exact ⟨h, by simp [round, h]⟩
  · right
    refine ⟨Nat.lt_of_not_le h, ?_⟩
    have hq : ¬ QINF ≤ 0 := Nat.not_le.mpr QINF_pos
    by_cases h0 : rnd a b = 0
    · cases neg <;> simp [round, hq, h0, zeroS, isInf, val, signed]
    · cases neg <;> simp [round, h, h0, isInf, val, signed]

theorem signed_rnd_mono {neg neg' : Bool} {a b a' b' : Nat} (hb : 0 < b) (hb' : 0 < b')
    (h : signed neg a * b' ≤ signed neg' a' * b) :
    signed neg (rnd a b) ≤ signed neg' (rnd a' b') := by
  cases neg <;> cases neg' <;> simp only [signed, Bool.false_eq_true, if_false, if_true] at h ⊢
  · have h2 : a * b' ≤ a' * b := by exact_mod_cast h
    exact_mod_cast rnd_mono hb hb' h2
  · have h1 : (0 : Int) ≤ (a : Int) * b' := by positivity
    have h2 : (0 : Int) ≤ (a' : Int) * b := by positivity
    have h3 : (a : Int) * b' = 0 := by linarith
    have h4 : (a' : Int) * b = 0 := by linarith
    have ha : a = 0 := by
      have : a * b' = 0 := by exact_mod_cast h3
      rcases Nat.mul_eq_zero.mp this with h | h
      · exact h
      · omega
    have ha' : a' = 0 := by
      have : a' * b = 0 := by exact_mod_cast h4
      rcases Nat.mul_eq_zero.mp this with h | h
      · exact h
      · omega
    rw [ha, ha', rnd_zero, rnd_zero]
    simp
  · have h1 : (0 : Int) ≤ (rnd a b : Int) := by positivity
    have h2 : (0 : Int) ≤ (rnd a' b' : Int) := by positivity
    linarith
  · have h2 : a' * b ≤ a * b' := by
      have : (a' : Int) * b ≤ (a : Int) * b' := by linarith
      exact_mod_cast this
    have := rnd_mono hb' hb h2
    have h3 : (rnd a' b' : Int) ≤ (rnd a b : Int) := by exact_mod_cast this
    linarith

theorem round_le_round {neg neg' : Bool} {a b a' b' : Nat} (hb : 0 < b) (hb' : 0 < b')
    (h : signed neg a * b' ≤ signed neg' a' * b) :
    le (round neg a b) (round neg' a' b') := by
  have hm := signed_rnd_mono hb hb' h
  have hQ := QINF_pos
  rcases round_spec neg a b with ⟨q1, e1⟩ | ⟨q1, n1, i1, v1⟩ <;>
  rcases round_spec neg' a' b' with ⟨q2, e2⟩ | ⟨q2, n2, i2, v2⟩
  · rw [e1, e2]
    cases neg <;> cases neg' <;>
      simp only [signed, Bool.false_eq_true, if_false, if_true] at hm <;>
      (simp [le, infS]; try omega)
  · rw [e1]
    cases neg
    · simp only [signed, Bool.false_eq_true, if_false] at hm
      cases neg' <;> (simp only [signed, Bool.false_eq_true, if_false, if_true] at hm; omega)
    · simp only [le, infS, if_true]
      exact ⟨by simp, n2, Or.inl trivial⟩
  · rw [e2]
    cases neg'
    · simp only [le, infS, Bool.false_eq_true, if_false]
      exact ⟨n1, by simp, Or.inr (Or.inl trivial)⟩
    · simp only [signed, if_true] at hm
      cases neg <;> simp only [signed, Bool.false_eq_true, if_false, if_true] at hm <;> omega
  · exact ⟨n1, n2, Or.inr (Or.inr ⟨i1, i2, by rw [v1, v2]; exact hm⟩)⟩


theorem isFinite_cases {a : B32} (h : isFinite a) : (∃ z, a = fin z) ∨ a = nzero := by
  cases a with
  | fin z => exact Or.inl ⟨z, rfl⟩
  | nzero => exact Or.inr rfl
  | pinf => simp [isFinite, isInf] at h
  | ninf => simp [isFinite, isInf] at h
  | nan => simp [isFinite] at h

theorem round_zero (neg : Bool) (b : Nat) : round neg 0 b = zeroS neg := by
  have hq : ¬ QINF ≤ 0 := Nat.not_le.mpr QINF_pos
  simp [round, rnd_zero, hq]

theorem round_ne_nan (neg : Bool) (a b : Nat) : round neg a b ≠ nan := by
  rcases round_spec neg a b with ⟨_, e⟩ | ⟨_, n, _, _⟩
  · rw [e]; cases neg <;> simp [infS]
  · exact n

theorem signed_mul (a b : B32) (ha : isFinite a) (hb : isFinite b) :
    signed (xor (isNeg a) (isNeg b)) (mag a * mag b) = val a * val b := by
  rcases isFinite_cases ha with ⟨x, rfl⟩ | rfl <;> rcases isFinite_cases hb with ⟨y, rfl⟩ | rfl
  · simp only [isNeg, mag, val, signed]
    by_cases hx : x < 0 <;> by_cases hy : y < 0 <;> simp [hx, hy] <;>
      first
        | (rw [abs_of_neg hx, abs_of_neg hy]; ring)
        | (rw [abs_of_neg hx, abs_of_nonneg (not_lt.mp hy)]; ring)
        | (rw [abs_of_nonneg (not_lt.mp hx), abs_of_neg hy]; ring)
        | (rw [abs_of_nonneg (not_lt.mp hx), abs_of_nonneg (not_lt.mp hy)])
  · simp [isNeg, mag, val, signed]
  · simp [isNeg, mag, val, signed]
  · simp [isNeg, mag, val, signed]

theorem signed_mag (a : B32) (ha : isFinite a) : signed (isNeg a) (mag a) = val a := by
  rcases isFinite_cases ha with ⟨x, rfl⟩ | rfl
  · simp only [isNeg, mag, val]
    exact signed_natAbs x
  · simp [isNeg, mag, val, signed]

/-- The sum of two finite values is the rounded exact sum. -/
theorem add_finite (a c : B32) (ha : isFinite a) (hc : isFinite c) :
    ∃ ng : Bool, add a c = round ng (val a + val c).natAbs 1
      ∧ signed ng (val a + val c).natAbs = val a + val c := by
  rcases isFinite_cases ha with ⟨x, rfl⟩ | rfl <;> rcases isFinite_cases hc with ⟨y, rfl⟩ | rfl
  · by_cases h0 : x + y = 0
    · refine ⟨false, ?_, ?_⟩
      · simp [add, isInf, val, h0, round_zero, zeroS]
      · simp [val, h0, signed]
    · exact ⟨decide (x + y < 0), by simp [add, isInf, val, h0], signed_natAbs _⟩
  · by_cases h0 : x = 0
    · refine ⟨false, ?_, ?_⟩
      · simp [add, isInf, val, h0, round_zero, zeroS]
      · simp [val, h0, signed]
    · exact ⟨decide (x < 0), by simp [add, isInf, val, h0], by simpa [val] using signed_natAbs x⟩
  · by_cases h0 : y = 0
    · refine ⟨false, ?_, ?_⟩
      · simp [add, isInf, val, h0, round_zero, zeroS]
      · simp [val, h0, signed]
    · exact ⟨decide (y < 0), by simp [add, isInf, val, h0], by simpa [val] using signed_natAbs y⟩
  · exact ⟨true, by simp [add, isInf, val, round_zero, zeroS], by simp [val, signed]⟩

theorem isFinite_fin (z : Int) : isFinite (fin z) := ⟨by simp, rfl⟩

theorem isFinite_nzero : isFinite nzero := ⟨by simp, rfl⟩

theorem add_ne_nan_of_finite (a c : B32) (ha : a ≠ nan) (hc : isFinite c) : add a c ≠ nan := by
  have key : ∀ a : B32, isFinite a → add a c ≠ nan := by
    intro a hf
    obtain ⟨ng, e, _⟩ := add_finite a c hf hc
    rw [e]
    exact round_ne_nan _ _ _
  cases a with
  | fin z => exact key _ (isFinite_fin z)
  | nzero => exact key _ isFinite_nzero
  | pinf => rcases isFinite_cases hc with ⟨y, rfl⟩ | rfl <;> simp [add, isInf, isNeg]
  | ninf => rcases isFinite_cases hc with ⟨y, rfl⟩ | rfl <;> simp [add, isInf, isNeg]
  | nan => exact absurd rfl ha


theorem le_cases {x y : B32} (h : le x y) :
    (x = ninf ∧ y ≠ nan) ∨ (y = pinf ∧ x ≠ nan) ∨ (isFinite x ∧ isFinite y ∧ val x ≤ val y) := by
  obtain ⟨h1, h2, h3⟩ := h
  rcases h3 with h3 | h3 | ⟨i1, i2, v⟩
  · exact Or.inl ⟨h3, h2⟩
  · exact Or.inr (Or.inl ⟨h3, h1⟩)
  · exact Or.inr (Or.inr ⟨⟨h1, i1⟩, ⟨h2, i2⟩, v⟩)

theorem ninf_le {b : B32} (h : b ≠ nan) : le ninf b := ⟨by simp, h, Or.inl rfl⟩

theorem le_pinf {a : B32} (h : a ≠ nan) : le a pinf := ⟨h, by simp, Or.inr (Or.inl rfl)⟩

theorem le_of_finite {a b : B32} (ha : isFinite a) (hb : isFinite b) (h : val a ≤ val b) :
    le a b := ⟨ha.1, hb.1, Or.inr (Or.inr ⟨ha.2, hb.2, h⟩)⟩

theorem le_refl32 {a : B32} (h : a ≠ nan) : le a a := by
  cases a <;> simp [le, isInf, val] at h ⊢

theorem le_trans32 {a b c : B32} (h1 : le a b) (h2 : le b c) : le a c := by
  cases a <;> cases b <;> cases c <;> simp [le, isInf, val] at h1 h2 ⊢ <;> omega

theorem le_left_ne_nan {a b : B32} (h : le a b) : a ≠ nan := h.1

theorem le_right_ne_nan {a b : B32} (h : le a b) : b ≠ nan := h.2.1

theorem add_comm32 (a b : B32) : add a b = add b a := by
  cases a <;> cases b <;> simp [add, isInf, isNeg, val, Int.add_comm]

theorem mul_comm32 (a b : B32) : mul a b = mul b a := by
  cases a <;> cases b <;> simp [mul, isInf, isNeg, mag, Nat.mul_comm, Bool.xor_comm]

theorem add_le_add_right32 (x y c : B32) (hc : isFinite c) (h : le x y) :
    le (add x c) (add y c) := by
  rcases le_cases h with ⟨rfl, hy⟩ | ⟨rfl, hx⟩ | ⟨fx, fy, hv⟩
  · have e : add ninf c = ninf := by
      rcases isFinite_cases hc with ⟨k, rfl⟩ | rfl <;> simp [add, isInf, isNeg]
    rw [e]
    exact ninf_le (add_ne_nan_of_finite y c hy hc)
  · have e : add pinf c = pinf := by
      rcases isFinite_cases hc with ⟨k, rfl⟩ | rfl <;> simp [add, isInf, isNeg]
    rw [e]
    exact le_pinf (add_ne_nan_of_finite x c hx hc)
  · obtain ⟨n1, e1, s1⟩ := add_finite x c fx hc
    obtain ⟨n2, e2, s2⟩ := add_finite y c fy hc
    rw [e1, e2]
    apply round_le_round (by norm_num) (by norm_num)
    rw [s1, s2]
    push_cast
    omega

theorem add_le_add_left32 (c x y : B32) (hc : isFinite c) (h : le x y) :
    le (add c x) (add c y) := by
  rw [add_comm32 c x, add_comm32 c y]
  exact add_le_add_right32 x y c hc h

theorem neg_finite {c : B32} (hc : isFinite c) : isFinite (neg c) := by
  rcases isFinite_cases hc with ⟨k, rfl⟩ | rfl
  · by_cases h : k = 0 <;> simp [neg, h, isFinite, isInf]
  · simp [neg, isFinite, isInf]

theorem sub_le_sub_right32 (x y c : B32) (hc : isFinite c) (h : le x y) :
    le (sub x c) (sub y c) := add_le_add_right32 x y (neg c) (neg_finite hc) h

theorem sub_self32 {a : B32} (ha : isFinite a) : sub a a = fin 0 := by
  rcases isFinite_cases ha with ⟨k, rfl⟩ | rfl
  · by_cases h : k = 0 <;> simp [sub, neg, add, h, isInf, val]
  · simp [sub, neg, add, isInf, val]

theorem mul_finite (a b : B32) (ha : isFinite a) (hb : isFinite b) :
    mul a b = round (xor (isNeg a) (isNeg b)) (mag a * mag b) (2 ^ 149) := by
  unfold mul
  simp [ha.1, hb.1, ha.2, hb.2]

theorem mul_le_mul_left_finite (d x y : B32) (hd : isFinite d) (hx : isFinite x)
    (hy : isFinite y) (h0 : 0 ≤ val d) (h : val x ≤ val y) : le (mul d x) (mul d y) := by
  rw [mul_finite d x hd hx, mul_finite d y hd hy]
  apply round_le_round (by positivity) (by positivity)
  rw [signed_mul d x hd hx, signed_mul d y hd hy]
  have : val d * val x ≤ val d * val y := Int.mul_le_mul_of_nonneg_left h h0
  have h2 : (0 : Int) ≤ ((2 ^ 149 : Nat) : Int) := by positivity
  exact Int.mul_le_mul_of_nonneg_right this h2

theorem mul_le_mul_left_finite_nonpos (d x y : B32) (hd : isFinite d) (hx : isFinite x)
    (hy : isFinite y) (h0 : val d ≤ 0) (h : val x ≤ val y) : le (mul d y) (mul d x) := by
  rw [mul_finite d x hd hx, mul_finite d y hd hy]
  apply round_le_round (by positivity) (by positivity)
  rw [signed_mul d x hd hx, signed_mul d y hd hy]
  have : val d * val y ≤ val d * val x := Int.mul_le_mul_of_nonpos_left h0 h
  have h2 : (0 : Int) ≤ ((2 ^ 149 : Nat) : Int) := by positivity
  exact Int.mul_le_mul_of_nonneg_right this h2

theorem mul_pos_inf (k : Int) (hk : 0 < k) :
    mul (fin k) pinf = pinf ∧ mul (fin k) ninf = ninf := by
  have h1 : ¬ k < 0 := by omega
  have h2 : k ≠ 0 := by omega
  constructor <;> simp [mul, isInf, isNeg, mag, infS, h1, h2]

theorem mul_pos_ne_nan (k : Int) (hk : 0 < k) (x : B32) (hx : x ≠ nan) :
    mul (fin k) x ≠ nan := by
  cases x with
  | fin z => rw [mul_finite _ _ (isFinite_fin k) (isFinite_fin z)]; exact round_ne_nan _ _ _
  | nzero => rw [mul_finite _ _ (isFinite_fin k) isFinite_nzero]; exact round_ne_nan _ _ _
  | pinf => rw [(mul_pos_inf k hk).1]; simp
  | ninf => rw [(mul_pos_inf k hk).2]; simp
  | nan => exact absurd rfl hx

theorem mul_le_mul_left32 (k : Int) (hk : 0 < k) (x y : B32) (h : le x y) :
    le (mul (fin k) x) (mul (fin k) y) := by
  rcases le_cases h with ⟨rfl, hy⟩ | ⟨rfl, hx⟩ | ⟨fx, fy, hv⟩
  · rw [(mul_pos_inf k hk).2]
    exact ninf_le (mul_pos_ne_nan k hk y hy)
  · rw [(mul_pos_inf k hk).1]
    exact le_pinf (mul_pos_ne_nan k hk x hx)
  · exact mul_le_mul_left_finite (fin k) x y (isFinite_fin k) fx fy (by simp [val]; omega) hv

theorem mul_le_mul_right32 (k : Int) (hk : 0 < k) (x y : B32) (h : le x y) :
    le (mul x (fin k)) (mul y (fin k)) := by
  rw [mul_comm32 x, mul_comm32 y]
  exact mul_le_mul_left32 k hk x y h


theorem pos_cases {x : B32} (h : lt (fin 0) x) : x = pinf ∨ ∃ z : Int, x = fin z ∧ 0 < z := by
  cases x with
  | fin z => exact Or.inr ⟨z, rfl, by simpa [lt, isInf, val] using h⟩
  | nzero => simp [lt, isInf, val] at h
  | pinf => exact Or.inl rfl
  | ninf => simp [lt, isInf, val] at h
  | nan => simp [lt] at h

theorem lt_of_lt_of_le32 {a b c : B32} (h1 : lt a b) (h2 : le b c) : lt a c := by
  cases a <;> cases b <;> cases c <;> simp [le, lt, isInf, val] at h1 h2 ⊢ <;> omega

theorem le_of_lt32 {a b : B32} (h : lt a b) : le a b := by
  cases a <;> cases b <;> simp [le, lt, isInf, val] at h ⊢ <;> omega

theorem signed_scale (a : B32) (ha : isFinite a) (m : Nat) :
    signed (xor (isNeg a) false) (mag a * m) = val a * m := by
  have h := signed_mag a ha
  simp only [Bool.xor_false]
  unfold signed at h ⊢
  cases hn : isNeg a
  · rw [hn] at h
    simp only [Bool.false_eq_true, if_false] at h ⊢
    push_cast
    rw [h]
  · rw [hn] at h
    simp only [if_true] at h ⊢
    push_cast
    rw [← h]
    ring

theorem div_finite (a b : B32) (ha : isFinite a) (hb : isFinite b) (h0 : mag b ≠ 0) :
    div a b = round (xor (isNeg a) (isNeg b)) (mag a * 2 ^ 149) (mag b) := by
  unfold div
  simp [ha.1, hb.1, ha.2, hb.2, h0]

theorem div_pos_inf (k : Int) (hk : 0 < k) :
    div pinf (fin k) = pinf ∧ div ninf (fin k) = ninf ∧ div (fin k) pinf = fin 0 := by
  have h1 : ¬ k < 0 := by omega
  refine ⟨?_, ?_, ?_⟩ <;> simp [div, isInf, isNeg, infS, zeroS, h1]

theorem div_by_pos_ne_nan (k : Int) (hk : 0 < k) (x : B32) (hx : x ≠ nan) :
    div x (fin k) ≠ nan := by
  have hm : mag (fin k) ≠ 0 := by simp only [mag]; omega
  cases x with
  | fin z => rw [div_finite _ _ (isFinite_fin z) (isFinite_fin k) hm]; exact round_ne_nan _ _ _
  | nzero => rw [div_finite _ _ isFinite_nzero (isFinite_fin k) hm]; exact round_ne_nan _ _ _
  | pinf => rw [(div_pos_inf k hk).1]; simp
  | ninf => rw [(div_pos_inf k hk).2.1]; simp
  | nan => exact absurd rfl hx

theorem div_le_div_right32 (k : Int) (hk : 0 < k) (x y : B32) (h : le x y) :
    le (div x (fin k)) (div y (fin k)) := by
  have hm : mag (fin k) ≠ 0 := by simp only [mag]; omega
  have hn : isNeg (fin k) = false := by simp only [isNeg]; simp; omega
  rcases le_cases h with ⟨rfl, hy⟩ | ⟨rfl, hx⟩ | ⟨fx, fy, hv⟩
  · rw [(div_pos_inf k hk).2.1]
    exact ninf_le (div_by_pos_ne_nan k hk y hy)
  · rw [(div_pos_inf k hk).1]
    exact le_pinf (div_by_pos_ne_nan k hk x hx)
  · rw [div_finite x _ fx (isFinite_fin k) hm, div_finite y _ fy (isFinite_fin k) hm, hn]
    apply round_le_round (Nat.pos_of_ne_zero hm) (Nat.pos_of_ne_zero hm)
    rw [signed_scale x fx, signed_scale y fy]
    have h2 : (0 : Int) ≤ ((2 ^ 149 : Nat) : Int) := by positivity
    have h3 : (0 : Int) ≤ ((mag (fin k) : Nat) : Int) := by positivity
    exact Int.mul_le_mul_of_nonneg_right (Int.mul_le_mul_of_nonneg_right hv h2) h3

/-- A positive constant divided by a positive value: the larger the divisor the smaller the
quotient. -/
theorem div_le_div_left32 (k : Int) (hk : 0 < k) (x y : B32) (hx : lt (fin 0) x) (h : le x y) :
    le (div (fin k) y) (div (fin k) x) := by
  have hn : isNeg (fin k) = false := by simp only [isNeg]; simp; omega
  have hy : lt (fin 0) y := lt_of_lt_of_le32 hx h
  have key : ∀ z : Int, 0 < z →
      div (fin k) (fin z) = round false (k.natAbs * 2 ^ 149) z.natAbs := by
    intro z hz
    have hm : mag (fin z) ≠ 0 := by simp only [mag]; omega
    have hnz : isNeg (fin z) = false := by simp only [isNeg]; simp; omega
    rw [div_finite _ _ (isFinite_fin k) (isFinite_fin z) hm, hn, hnz]
    rfl
  have z0 : fin 0 = round false 0 1 := by rw [round_zero]; rfl
  rcases pos_cases hx with rfl | ⟨z, rfl, hz⟩ <;> rcases pos_cases hy with rfl | ⟨z', rfl, hz'⟩
  · rw [(div_pos_inf k hk).2.2]
    exact le_refl32 (by simp)
  · simp [le, isInf] at h
  · rw [(div_pos_inf k hk).2.2, key z hz, z0]
    apply round_le_round (by norm_num) (by omega)
    simp only [signed, Bool.false_eq_true, if_false]
    have hp : (0 : Int) ≤ ((k.natAbs * 2 ^ 149 : Nat) : Int) := by positivity
    simp
  · rw [key z hz, key z' hz']
    have hzz : z ≤ z' := by simpa [le, isInf, val] using h
    apply round_le_round (by omega) (by omega)
    simp only [signed, Bool.false_eq_true, if_false]
    have h1 : ((z.natAbs : Nat) : Int) ≤ ((z'.natAbs : Nat) : Int) := by omega
    have h2 : (0 : Int) ≤ ((k.natAbs * 2 ^ 149 : Nat) : Int) := by positivity
    exact Int.mul_le_mul_of_nonneg_left h1 h2

theorem div_pos_zero (k : Int) (hk : 0 < k) :
    div (fin k) (fin 0) = pinf ∧ div (fin k) nzero = ninf ∧ div (fin k) ninf = nzero := by
  have h1 : ¬ k < 0 := by omega
  have h2 : k ≠ 0 := by omega
  refine ⟨?_, ?_, ?_⟩ <;> simp [div, isInf, isNeg, mag, infS, zeroS, h1, h2]

theorem div_pos_ne_nan (k : Int) (hk : 0 < k) (x : B32) (hx : x ≠ nan) :
    div (fin k) x ≠ nan := by
  cases x with
  | fin z =>
    by_cases hz : z = 0
    · subst hz
      rw [(div_pos_zero k hk).1]; simp
    · have hm : mag (fin z) ≠ 0 := by simp only [mag]; omega
      rw [div_finite _ _ (isFinite_fin k) (isFinite_fin z) hm]
      exact round_ne_nan _ _ _
  | nzero => rw [(div_pos_zero k hk).2.1]; simp
  | pinf => rw [(div_pos_inf k hk).2.2]; simp
  | ninf => rw [(div_pos_zero k hk).2.2]; simp
  | nan => exact absurd rfl hx

theorem ofNat_le_ofNat {i j : Nat} (h : i ≤ j) : le (ofNat i) (ofNat j) := by
  unfold ofNat
  apply round_le_round (by norm_num) (by norm_num)
  simp only [signed, Bool.false_eq_true, if_false]
  have : i * 2 ^ 149 ≤ j * 2 ^ 149 := Nat.mul_le_mul_right _ h
  exact_mod_cast Nat.mul_le_mul_right 1 this

theorem round_wf_eq (z : Int) (h : wf (fin z)) (hz : z ≠ 0) :
    round (decide (z < 0)) z.natAbs 1 = fin z := by
  simp only [wf, mag] at h
  obtain ⟨h1, h2⟩ := h
  have e := rnd_idem h2
  have h3 : ¬ QINF ≤ z.natAbs := Nat.not_le.mpr h1
  have h4 : z.natAbs ≠ 0 := by omega
  unfold round
  rw [e, if_neg h3, if_neg h4]
  congr 1
  by_cases hn : z < 0
  · simp only [hn, decide_True, if_true]; omega
  · simp only [hn, decide_False, Bool.false_eq_true, if_false]; omega

/-- Adding a zero of either sign to a value binary32 can hold (other than `-0`) returns
the value. -/
theorem add_zeroS (z : Int) (h : wf (fin z)) (s : Bool) : add (fin z) (zeroS s) = fin z := by
  by_cases hz : z = 0
  · subst hz
    cases s <;> simp [add, zeroS, isInf, val]
  · cases s <;> simp [add, zeroS, isInf, val, hz, round_wf_eq z h hz]

theorem mul_zero_right (d : B32) (hd : isFinite d) : mul d (fin 0) = zeroS (isNeg d) := by
  rw [mul_finite d _ hd (isFinite_fin 0)]
  simp [mag, isNeg, round_zero]

end B32

/-! ## The program over binary32 -/

namespace B32

theorem hadd_eq [Libm32] (a b : B32) : a + b = add a b := rfl

theorem hsub_eq [Libm32] (a b : B32) : a - b = sub a b := rfl

theorem hmul_eq [Libm32] (a b : B32) : a * b = mul a b := rfl

theorem hdiv_eq [Libm32] (a b : B32) : a / b = div a b := rfl

theorem gradient_temp_eq [Libm32] (a b : B32) (i : Nat) :
    gradient_temp a b i = add a (mul (sub b a) (div (ofNat i) (ofNat 40))) := rfl

theorem sweep_temp_eq [Libm32] (a b : B32) (steps i : Nat) :
    sweep_temp a b steps i = add a (mul (sub b a) (div (ofNat i) (ofNat steps))) := rfl

theorem resistance_eq [Libm32] (t : B32) :
    therm_resistance_from_temp t =
      mul 10000.0 (Libm32.expf (mul 3950.0
        (sub (div 1.0 (add t 273.15)) (div 1.0 (add 25.0 273.15))))) := rfl

theorem voltage_from_resistance_eq [Libm32] (r : B32) :
    therm_voltage_from_resistance r = mul 3.3 (div 10000.0 (add r 10000.0)) := rfl

theorem duty_from_voltage_eq [Libm32] (v : B32) :
    therm_duty_from_voltage v = mul (div v 3.3) 100.0 := rfl

theorem duty_eq [Libm32] (t : B32) :
    therm_duty_from_temp t =
      mul (div (therm_voltage_from_resistance (therm_resistance_from_temp t)) 3.3) 100.0 := rfl

end B32

/-- The record `thermistor_set_gradient` leaves in channel `i`, for every float type. -/
theorem gradient_channel_record {F : Type} [FloatOps F] (t_min t_max : F) (st : Sim F)
    (i : Fin NUM_CHANNELS) :
    (thermistor_set_gradient t_min t_max st).2.channels i =
      { st.channels i with
        current_temp := gradient_temp t_min t_max i.val
        current_duty := therm_duty_from_temp (gradient_temp t_min t_max i.val) } := by
  unfold thermistor_set_gradient
  rw [set_gradient_loop_eq _ _ NUM_CHANNELS 0 st (by simp)]
  simp only
  rw [fold_set_temp_channels (gradient_temp t_min t_max) NUM_CHANNELS 0 st (by simp) i]
  have hi : 0 ≤ i.val ∧ i.val < 0 + NUM_CHANNELS := ⟨Nat.zero_le _, by simp⟩
  rw [if_pos hi]

/-- The record `thermistor_set_all_temp` leaves in channel `i`, for every float type. -/
theorem set_all_channel_record {F : Type} [FloatOps F] (t : F) (st : Sim F)
    (i : Fin NUM_CHANNELS) :
    (thermistor_set_all_temp t st).2.channels i =
      { st.channels i with current_temp := t, current_duty := therm_duty_from_temp t } := by
  unfold thermistor_set_all_temp
  rw [set_all_loop_eq _ NUM_CHANNELS 0 st (by simp)]
  simp only
  rw [fold_set_temp_channels (fun _ => t) NUM_CHANNELS 0 st (by simp) i]
  have hi : 0 ≤ i.val ∧ i.val < 0 + NUM_CHANNELS := ⟨Nat.zero_le _, by simp⟩
  rw [if_pos hi]

/-- Two runs of `thermistor_set_temp` over the same channels agree when the temperatures
agree on those channels. -/
theorem fold_set_temp_congr {F : Type} [FloatOps F] (f g : Nat → F) (l : List Nat)
    (h : ∀ k, k ∈ l → f k = g k) :
    ∀ st : Sim F, l.foldl (fun s k => (thermistor_set_temp k (f k) s).2) st
      = l.foldl (fun s k => (thermistor_set_temp k (g k) s).2) st := by
  induction l with
  | nil => intro st; rfl
  | cons a l ih =>
    intro st
    rw [List.foldl_cons, List.foldl_cons, h a (List.mem_cons_self a l)]
    exact ih (fun k hk => h k (List.mem_cons_of_mem a hk)) _

namespace B32

/-- The fractions `(float)i / 40` of the 41 channels are finite. -/
theorem frac40_finite : ∀ k : Nat, k < 41 → isFinite (div (ofNat k) (ofNat 40)) := by
  decide

theorem mul_zero_left (x : B32) (hx : isFinite x) : mul (fin 0) x = zeroS (isNeg x) := by
  rw [mul_finite _ x (isFinite_fin 0) hx]
  simp [mag, isNeg, round_zero]

/-- With equal ends every interpolated temperature is the end itself. -/
theorem gradient_temp_degenerate [Libm32] (t : B32) (hf : isFinite t) (hz : t ≠ nzero)
    (hw : wf t) (k : Nat) (hk : k < 41) : gradient_temp t t k = t := by
  rcases isFinite_cases hf with ⟨z, rfl⟩ | rfl
  · rw [gradient_temp_eq, sub_self32 hf, mul_zero_left _ (frac40_finite k hk)]
    exact add_zeroS z hw _
  · exact absurd rfl hz

end B32

/-- C19, refuted as stated: with `t = +inf` the gradient computes `inf - inf` and stores NaN
in channel 0, while the uniform set stores `+inf` there. -/
theorem gradient_at_infinity_differs :
    B32.nan ≠ B32.pinf
    ∧ ∀ [Libm32] (st : Sim B32),
        ((thermistor_set_gradient B32.pinf B32.pinf st).2.channels
          ⟨0, by decide⟩).current_temp = B32.nan
        ∧ ((thermistor_set_all_temp B32.pinf st).2.channels
          ⟨0, by decide⟩).current_temp = B32.pinf := by
  refine ⟨by decide, ?_⟩
  intro _ st
  rw [gradient_channel_record, set_all_channel_record]
  refine ⟨?_, rfl⟩
  show gradient_temp B32.pinf B32.pinf 0 = B32.nan
  rw [B32.gradient_temp_eq]
  decide

/-- C19, amended: a degenerate gradient is a uniform set for every finite temperature.  For
every finite binary32 value `t` other than `-0.0` and every starting state,
`thermistor_set_gradient t t` returns the same value and leaves the same state (channel
table and printed lines) as `thermistor_set_all_temp t`. -/
theorem gradient_degenerate_is_set_all [Libm32] (t : B32) (st : Sim B32)
    (hf : B32.isFinite t) (hz : t ≠ B32.nzero) (hw : B32.wf t) :
    thermistor_set_gradient t t st = thermistor_set_all_temp t st
    ∧ (thermistor_set_gradient t t st).1 = 0 := by
  have main : thermistor_set_gradient t t st = thermistor_set_all_temp t st := by
    unfold thermistor_set_gradient thermistor_set_all_temp
    rw [set_gradient_loop_eq _ _ NUM_CHANNELS 0 st (by simp),
      set_all_loop_eq _ NUM_CHANNELS 0 st (by simp)]
    congr 1
    apply fold_set_temp_congr
    intro k hk
    have hk2 : k < 41 := by
      have h41 := num_channels_eq
      have := List.mem_range'_1.mp hk
      omega
    exact B32.gradient_temp_degenerate t hf hz hw k hk2
  refine ⟨main, ?_⟩
  rw [main]
  unfold thermistor_set_all_temp
  rw [set_all_loop_eq _ NUM_CHANNELS 0 st (by simp)]

/-- Witness of the amended C19: the temperature 25. -/
theorem gradient_degenerate_is_set_all_witness :
    B32.isFinite 25.0 ∧ (25.0 : B32) ≠ B32.nzero ∧ B32.wf 25.0
    ∧ ∀ [Libm32] (st : Sim B32),
        thermistor_set_gradient (25.0 : B32) 25.0 st = thermistor_set_all_temp 25.0 st
        ∧ (thermistor_set_gradient (25.0 : B32) 25.0 st).1 = 0 :=
  ⟨by decide, by decide, by decide,
    fun st => gradient_degenerate_is_set_all 25.0 st (by decide) (by decide) (by decide)⟩

/-! ## Monotonicity of the conversion model over binary32 -/

namespace B32

theorem isPosFin_finite {c : B32} (hc : isPosFin c) : isFinite c := by
  rw [hc.1]
  exact isFinite_fin _

theorem mul_const_le (c x y : B32) (hc : isPosFin c) (h : le x y) :
    le (mul c x) (mul c y) := by
  rw [hc.1]
  exact mul_le_mul_left32 _ hc.2 x y h

theorem mul_const_ne_nan (c x : B32) (hc : isPosFin c) (hx : x ≠ nan) : mul c x ≠ nan := by
  rw [hc.1]
  exact mul_pos_ne_nan _ hc.2 x hx

theorem mul_le_const (c x y : B32) (hc : isPosFin c) (h : le x y) :
    le (mul x c) (mul y c) := by
  rw [hc.1]
  exact mul_le_mul_right32 _ hc.2 x y h

theorem div_le_const (c x y : B32) (hc : isPosFin c) (h : le x y) :
    le (div x c) (div y c) := by
  rw [hc.1]
  exact div_le_div_right32 _ hc.2 x y h

theorem const_div_le (c x y : B32) (hc : isPosFin c) (hx : lt (fin 0) x) (h : le x y) :
    le (div c y) (div c x) := by
  rw [hc.1]
  exact div_le_div_left32 _ hc.2 x y hx h

theorem const_div_ne_nan (c x : B32) (hc : isPosFin c) (hx : x ≠ nan) : div c x ≠ nan := by
  rw [hc.1]
  exact div_pos_ne_nan _ hc.2 x hx

/-- The divider voltage does not increase when the resistance grows from a non-negative
value. -/
theorem voltage_antitone [Libm32] (r1 r2 : B32) (h1 : le (fin 0) r1) (h : le r1 r2) :
    le (therm_voltage_from_resistance r2) (therm_voltage_from_resistance r1) := by
  rw [voltage_from_resistance_eq, voltage_from_resistance_eq]
  have hc : isPosFin (10000.0 : B32) := by decide
  have h33 : isPosFin (3.3 : B32) := by decide
  have hd : le (add r1 10000.0) (add r2 10000.0) :=
    add_le_add_right32 r1 r2 _ (isPosFin_finite hc) h
  have h0 : le (add (fin 0) 10000.0) (add r1 10000.0) :=
    add_le_add_right32 _ r1 _ (isPosFin_finite hc) h1
  have hp : lt (fin 0) (add r1 10000.0) :=
    lt_of_lt_of_le32 (by decide : lt (fin 0) (add (fin 0) 10000.0)) h0
  exact mul_const_le _ _ _ h33 (const_div_le _ _ _ hc hp hd)

/-- The divider voltage of a non-negative resistance lies between 0 and 3.3. -/
theorem voltage_bounds [Libm32] (r : B32) (h : le (fin 0) r) :
    le (fin 0) (therm_voltage_from_resistance r)
    ∧ le (therm_voltage_from_resistance r) 3.3 := by
  have hi : le r pinf := le_pinf (le_right_ne_nan h)
  have lo := voltage_antitone r pinf h hi
  have hi2 := voltage_antitone (fin 0) r (by decide) h
  have e1 : therm_voltage_from_resistance pinf = fin 0 := by
    rw [voltage_from_resistance_eq]
    decide
  have e2 : therm_voltage_from_resistance (fin 0) = (3.3 : B32) := by
    rw [voltage_from_resistance_eq]
    decide
  rw [e1] at lo
  rw [e2] at hi2
  exact ⟨lo, hi2⟩

/-- The duty does not decrease when the voltage grows. -/
theorem duty_from_voltage_monotone [Libm32] (v1 v2 : B32) (h : le v1 v2) :
    le (therm_duty_from_voltage v1) (therm_duty_from_voltage v2) := by
  have h33 : isPosFin (3.3 : B32) := by decide
  have h100 : isPosFin (100.0 : B32) := by decide
  show le (mul (div v1 3.3) 100.0) (mul (div v2 3.3) 100.0)
  exact mul_le_const _ _ _ h100 (div_le_const _ _ _ h33 h)

/-- The argument handed to `expf`: `THERM_BETA * (1.0f/t_kelvin - 1.0f/t_nom_kelvin)`. -/
theorem resistance_eq_expf [Libm32] (t : B32) :
    therm_resistance_from_temp t =
      mul 10000.0 (Libm32.expf (mul 3950.0
        (sub (div 1.0 (add t 273.15)) (div 1.0 (add 25.0 273.15))))) := rfl

theorem exp_arg_antitone (t1 t2 : B32) (hT : lt (fin 0) (add t1 273.15)) (h : le t1 t2) :
    le (mul 3950.0 (sub (div 1.0 (add t2 273.15)) (div 1.0 (add 25.0 273.15))))
       (mul 3950.0 (sub (div 1.0 (add t1 273.15)) (div 1.0 (add 25.0 273.15)))) := by
  have hk : isFinite (273.15 : B32) := by decide
  have h1 : isPosFin (1.0 : B32) := by decide
  have hb : isPosFin (3950.0 : B32) := by decide
  have hn : isFinite (div 1.0 (add 25.0 273.15) : B32) := by decide
  have hd : le (add t1 273.15) (add t2 273.15) := add_le_add_right32 t1 t2 _ hk h
  exact mul_const_le _ _ _ hb
    (sub_le_sub_right32 _ _ _ hn (const_div_le _ _ _ h1 hT hd))

theorem exp_arg_ne_nan (t : B32) (ht : t ≠ nan) :
    mul 3950.0 (sub (div 1.0 (add t 273.15)) (div 1.0 (add 25.0 273.15))) ≠ nan := by
  have hk : isFinite (273.15 : B32) := by decide
  have h1 : isPosFin (1.0 : B32) := by decide
  have hb : isPosFin (3950.0 : B32) := by decide
  have hn : isFinite (div 1.0 (add 25.0 273.15) : B32) := by decide
  apply mul_const_ne_nan _ _ hb
  apply add_ne_nan_of_finite _ _ _ (neg_finite hn)
  exact const_div_ne_nan _ _ h1 (add_ne_nan_of_finite t _ ht hk)

/-- With a non-negative `expf` the resistance of a non-NaN temperature is not negative. -/
theorem resistance_nonneg [Libm32]
    (hpos : ∀ x : B32, x ≠ nan → le (fin 0) (Libm32.expf x)) (t : B32) (ht : t ≠ nan) :
    le (fin 0) (therm_resistance_from_temp t) := by
  rw [resistance_eq_expf]
  have hc : isPosFin (10000.0 : B32) := by decide
  have := mul_const_le 10000.0 _ _ hc (hpos _ (exp_arg_ne_nan t ht))
  have e : mul (10000.0 : B32) (fin 0) = fin 0 := by decide
  rw [e] at this
  exact this

/-- With a non-decreasing `expf` the resistance does not increase with the temperature
above absolute zero. -/
theorem resistance_antitone [Libm32]
    (hmono : ∀ x y : B32, le x y → le (Libm32.expf x) (Libm32.expf y))
    (t1 t2 : B32) (hT : lt (fin 0) (add t1 273.15)) (h : le t1 t2) :
    le (therm_resistance_from_temp t2) (therm_resistance_from_temp t1) := by
  rw [resistance_eq_expf, resistance_eq_expf]
  have hc : isPosFin (10000.0 : B32) := by decide
  exact mul_const_le _ _ _ hc (hmono _ _ (exp_arg_antitone t1 t2 hT h))

theorem libm_step_values :
    (∀ z : Int, libm_step.expf (fin z) = ofNat 1) ∧ libm_step.expf nzero = ofNat 1
    ∧ libm_step.expf pinf = pinf ∧ libm_step.expf ninf = fin 0
    ∧ libm_step.expf nan = nan := ⟨fun _ => rfl, rfl, rfl, rfl, rfl⟩

theorem libm_step_monotone (x y : B32) (h : le x y) :
    le (libm_step.expf x) (libm_step.expf y) := by
  obtain ⟨e1, e2, e3, e4, e5⟩ := libm_step_values
  cases x <;> cases y <;> simp only [e1, e2, e3, e4, e5] <;>
    first | decide | (exfalso; simp [le, isInf] at h)

theorem libm_step_nonneg (x : B32) (hx : x ≠ nan) : le (fin 0) (libm_step.expf x) := by
  obtain ⟨e1, e2, e3, e4, e5⟩ := libm_step_values
  cases x <;> simp only [e1, e2, e3, e4, e5] <;> first | decide | exact absurd rfl hx

end B32

/-- C14, refuted as stated: the resistances 0 and 0.0001 differ, but `0.0001f + 10000.0f`
rounds to `10000.0f`, so `therm_voltage_from_resistance` returns the same voltage for
both, whatever the libm. -/
theorem voltage_equal_at_distinct_resistances :
    B32.lt 0.0 0.0001
    ∧ B32.add 0.0001 10000.0 = B32.add 0.0 10000.0
    ∧ ∀ [Libm32], therm_voltage_from_resistance (0.0 : B32)
        = therm_voltage_from_resistance (0.0001 : B32) := by
  refine ⟨by decide, by decide, ?_⟩
  intro _
  rw [B32.voltage_from_resistance_eq, B32.voltage_from_resistance_eq]
  decide

/-- C14, amended: `therm_voltage_from_resistance` is non-increasing (not strictly
decreasing) in the thermistor resistance: for all binary32 resistances `0 <= r1 <= r2` the
voltage at `r2` is at most the voltage at `r1`, the voltage being computed as
`THERM_VCC * (THERM_R_FIXED / (r + THERM_R_FIXED))` in float arithmetic. -/
theorem voltage_nonincreasing [Libm32] (r1 r2 : B32) (h1 : B32.le 0.0 r1)
    (h : B32.le r1 r2) :
    B32.le (therm_voltage_from_resistance r2) (therm_voltage_from_resistance r1)
    ∧ therm_voltage_from_resistance r1
        = B32.mul 3.3 (B32.div 10000.0 (B32.add r1 10000.0))
    ∧ therm_voltage_from_resistance r2
        = B32.mul 3.3 (B32.div 10000.0 (B32.add r2 10000.0)) := by
  have e : (0.0 : B32) = B32.fin 0 := by decide
  rw [e] at h1
  exact ⟨B32.voltage_antitone r1 r2 h1 h, rfl, rfl⟩

/-- Witness of the amended C14: 1 kOhm against 100 kOhm. -/
theorem voltage_nonincreasing_witness :
    B32.le 0.0 1000.0 ∧ B32.le 1000.0 100000.0
    ∧ ∀ [Libm32],
        B32.le (therm_voltage_from_resistance (100000.0 : B32))
          (therm_voltage_from_resistance (1000.0 : B32))
        ∧ therm_voltage_from_resistance (1000.0 : B32)
            = B32.mul 3.3 (B32.div 10000.0 (B32.add 1000.0 10000.0))
        ∧ therm_voltage_from_resistance (100000.0 : B32)
            = B32.mul 3.3 (B32.div 10000.0 (B32.add 100000.0 10000.0)) :=
  ⟨by decide, by decide, voltage_nonincreasing 1000.0 100000.0 (by decide) (by decide)⟩

/-- C5, refuted as stated: 25 and the next binary32 value above it (25.000002) give the
same float `t_kelvin`, so `therm_resistance_from_temp` and `therm_duty_from_temp` return
the same value for both, whatever the libm. -/
theorem duty_equal_at_adjacent_temperatures :
    B32.lt 25.0 25.000002
    ∧ B32.add 25.0 273.15 = B32.add 25.000002 273.15
    ∧ (∀ [Libm32], therm_resistance_from_temp (25.0 : B32)
        = therm_resistance_from_temp (25.000002 : B32))
    ∧ ∀ [Libm32], therm_duty_from_temp (25.0 : B32)
        = therm_duty_from_temp (25.000002 : B32) := by
  have hk : B32.add 25.0 273.15 = B32.add 25.000002 273.15 := by decide
  have hr : ∀ [Libm32], therm_resistance_from_temp (25.0 : B32)
      = therm_resistance_from_temp (25.000002 : B32) := by
    intro _
    rw [B32.resistance_eq_expf, B32.resistance_eq_expf, hk]
  refine ⟨by decide, hk, hr, ?_⟩
  intro _
  rw [B32.duty_eq, B32.duty_eq, hr]

/-- C5, amended: `therm_duty_from_temp` is non-decreasing, not strictly increasing.  For
all binary32 temperatures `t1 <= t2` above absolute zero (the float `t1 + 273.15f` is
positive), the duty at `t1` is at most the duty at `t2` and the resistance at `t2` is at
most the resistance at `t1`, provided the platform's `expf` is non-decreasing and
non-negative. -/
theorem duty_nondecreasing [Libm32]
    (hmono : ∀ x y : B32, B32.le x y → B32.le (Libm32.expf x) (Libm32.expf y))
    (hpos : ∀ x : B32, x ≠ B32.nan → B32.le (B32.fin 0) (Libm32.expf x))
    (t1 t2 : B32) (hT : B32.lt (B32.fin 0) (B32.add t1 273.15)) (h : B32.le t1 t2) :
    B32.le (therm_duty_from_temp t1) (therm_duty_from_temp t2)
    ∧ B32.le (therm_resistance_from_temp t2) (therm_resistance_from_temp t1) := by
  have hr := B32.resistance_antitone hmono t1 t2 hT h
  have h0 := B32.resistance_nonneg hpos t2 (B32.le_right_ne_nan h)
  have hv := B32.voltage_antitone _ _ h0 hr
  exact ⟨B32.duty_from_voltage_monotone _ _ hv, hr⟩

/-- Witness of the amended C5: the two ends of the supported range, over the libm
`B32.libm_step`. -/
theorem duty_nondecreasing_witness :
    (∀ x y : B32, B32.le x y → B32.le (B32.libm_step.expf x) (B32.libm_step.expf y))
    ∧ (∀ x : B32, x ≠ B32.nan → B32.le (B32.fin 0) (B32.libm_step.expf x))
    ∧ B32.lt (B32.fin 0) (B32.add (-40.0) 273.15)
    ∧ B32.le (-40.0) 125.0
    ∧ (letI : Libm32 := B32.libm_step
       B32.le (therm_duty_from_temp (-40.0 : B32)) (therm_duty_from_temp (125.0 : B32))
       ∧ B32.le (therm_resistance_from_temp (125.0 : B32))
           (therm_resistance_from_temp (-40.0 : B32))) :=
  ⟨B32.libm_step_monotone, B32.libm_step_nonneg, by decide, by decide,
    @duty_nondecreasing B32.libm_step B32.libm_step_monotone B32.libm_step_nonneg
      (-40.0) 125.0 (by decide) (by decide)⟩

/-- C13, amended: for every non-NaN binary32 temperature the resistance is not negative,
the voltage lies in the closed range from 0 to `THERM_VCC` and the duty in the closed range
from 0 to 100, provided the platform's `expf` is non-negative.  In every reachable state
each channel whose stored temperature is not NaN stores a duty in the closed range from 0
to 100.  Both ends of the range occur: a resistance of `+inf` gives the duty 0 and a
resistance of 0 gives the duty 100. -/
theorem duty_within_closed_range [Libm32]
    (hpos : ∀ x : B32, x ≠ B32.nan → B32.le (B32.fin 0) (Libm32.expf x))
    (t : B32) (ht : t ≠ B32.nan) :
    B32.le 0.0 (therm_resistance_from_temp t)
    ∧ B32.le 0.0 (therm_voltage_from_temp t)
    ∧ B32.le (therm_voltage_from_temp t) THERM_VCC
    ∧ B32.le 0.0 (therm_duty_from_temp t)
    ∧ B32.le (therm_duty_from_temp t) 100.0
    ∧ (∀ st : Sim B32, Reachable st → ∀ i : Fin NUM_CHANNELS,
        (st.channels i).current_temp ≠ B32.nan →
        B32.le 0.0 (st.channels i).current_duty
        ∧ B32.le (st.channels i).current_duty 100.0)
    ∧ therm_duty_from_voltage (therm_voltage_from_resistance B32.pinf) = (0.0 : B32)
    ∧ therm_duty_from_voltage (therm_voltage_from_resistance (0.0 : B32)) = (100.0 : B32) := by
  have e : (0.0 : B32) = B32.fin 0 := by decide
  have key : ∀ u : B32, u ≠ B32.nan →
      B32.le (B32.fin 0) (therm_resistance_from_temp u)
      ∧ B32.le (B32.fin 0) (therm_voltage_from_temp u)
      ∧ B32.le (therm_voltage_from_temp u) 3.3
      ∧ B32.le (B32.fin 0) (therm_duty_from_temp u)
      ∧ B32.le (therm_duty_from_temp u) 100.0 := by
    intro u hu
    have hr := B32.resistance_nonneg hpos u hu
    obtain ⟨v0, v1⟩ := B32.voltage_bounds _ hr
    have d0 := B32.duty_from_voltage_monotone _ _ v0
    have d1 := B32.duty_from_voltage_monotone _ _ v1
    have e0 : therm_duty_from_voltage (B32.fin 0) = B32.fin 0 := by
      rw [B32.duty_from_voltage_eq]
      decide
    have e1 : therm_duty_from_voltage (3.3 : B32) = (100.0 : B32) := by
      rw [B32.duty_from_voltage_eq]
      decide
    rw [e0] at d0
    rw [e1] at d1
    exact ⟨hr, v0, v1, d0, d1⟩
  have top : therm_duty_from_voltage (therm_voltage_from_resistance B32.pinf)
      = B32.fin 0 := by
    rw [B32.duty_from_voltage_eq, B32.voltage_from_resistance_eq]
    decide
  have bot : therm_duty_from_voltage (therm_voltage_from_resistance (B32.fin 0))
      = (100.0 : B32) := by
    rw [B32.duty_from_voltage_eq, B32.voltage_from_resistance_eq]
    decide
  rw [e]
  obtain ⟨k1, k2, k3, k4, k5⟩ := key t ht
  refine ⟨k1, k2, k3, k4, k5, fun st hst i hi => ?_, top, bot⟩
  rw [reachable_consistent st hst i]
  obtain ⟨_, _, _, m4, m5⟩ := key _ hi
  exact ⟨m4, m5⟩

/-- Witness of the amended C13: the temperature 125, over the libm `B32.libm_step`. -/
theorem duty_within_closed_range_witness :
    (∀ x : B32, x ≠ B32.nan → B32.le (B32.fin 0) (B32.libm_step.expf x))
    ∧ (125.0 : B32) ≠ B32.nan
    ∧ (letI : Libm32 := B32.libm_step
       B32.le 0.0 (therm_resistance_from_temp (125.0 : B32))
       ∧ B32.le 0.0 (therm_voltage_from_temp (125.0 : B32))
       ∧ B32.le (therm_voltage_from_temp (125.0 : B32)) THERM_VCC
       ∧ B32.le 0.0 (therm_duty_from_temp (125.0 : B32))
       ∧ B32.le (therm_duty_from_temp (125.0 : B32)) 100.0
       ∧ (∀ st : Sim B32, Reachable st → ∀ i : Fin NUM_CHANNELS,
           (st.channels i).current_temp ≠ B32.nan →
           B32.le 0.0 (st.channels i).current_duty
           ∧ B32.le (st.channels i).current_duty 100.0)
       ∧ therm_duty_from_voltage (therm_voltage_from_resistance B32.pinf) = (0.0 : B32)
       ∧ therm_duty_from_voltage (therm_voltage_from_resistance (0.0 : B32))
           = (100.0 : B32)) :=
  ⟨B32.libm_step_nonneg, by decide,
    @duty_within_closed_range B32.libm_step B32.libm_step_nonneg 125.0 (by decide)⟩

/-! ## Interpolation over binary32: sweep samples and gradient temperatures -/

namespace B32

theorem ofNat_zero : ofNat 0 = fin 0 := by decide

/-- An unsigned 32-bit integer above 0 converts to a positive finite value. -/
theorem ofNat_pos_fin (n : Nat) (h0 : 0 < n) (h : n < 2 ^ 32) :
    ∃ z : Int, ofNat n = fin z ∧ 0 < z := by
  have hlo : rnd (1 * 2 ^ 149) 1 ≤ rnd (n * 2 ^ 149) 1 :=
    rnd_mono (by norm_num) (by norm_num)
      (Nat.mul_le_mul_right 1 (Nat.mul_le_mul_right _ h0))
  have hhi : rnd (n * 2 ^ 149) 1 ≤ rnd (2 ^ 32 * 2 ^ 149) 1 :=
    rnd_mono (by norm_num) (by norm_num)
      (Nat.mul_le_mul_right 1 (Nat.mul_le_mul_right _ (Nat.le_of_lt h)))
  have e1 : 0 < rnd (1 * 2 ^ 149) 1 := by decide
  have e2 : rnd (2 ^ 32 * 2 ^ 149) 1 < QINF := by decide
  have h3 : ¬ QINF ≤ rnd (n * 2 ^ 149) 1 := by omega
  have h4 : rnd (n * 2 ^ 149) 1 ≠ 0 := by omega
  refine ⟨(rnd (n * 2 ^ 149) 1 : Int), ?_, by omega⟩
  unfold ofNat round
  rw [if_neg h3, if_neg h4]
  simp

theorem ofNat_finite (n : Nat) (h : n < 2 ^ 32) : isFinite (ofNat n) := by
  rcases Nat.eq_zero_or_pos n with rfl | h0
  · rw [ofNat_zero]
    exact isFinite_fin 0
  · obtain ⟨z, e, _⟩ := ofNat_pos_fin n h0 h
    rw [e]
    exact isFinite_fin z

theorem div_zero_pos (z : Int) (hz : 0 < z) : div (fin 0) (fin z) = fin 0 := by
  have hm : mag (fin z) ≠ 0 := by simp only [mag]; omega
  rw [div_finite _ _ (isFinite_fin 0) (isFinite_fin z) hm]
  have hn : isNeg (fin z) = false := by simp only [isNeg]; simp; omega
  simp [mag, isNeg, round_zero, zeroS]
  exact le_of_lt hz

theorem rnd_scale (m c : Nat) (hc : 0 < c) : rnd (m * c) c = rnd m 1 := by
  apply Nat.le_antisymm
  · exact rnd_mono hc (by norm_num) (by rw [Nat.mul_one])
  · exact rnd_mono (by norm_num) hc (by rw [Nat.mul_one])

theorem div_self_pos (z : Int) (hz : 0 < z) : div (fin z) (fin z) = fin (2 ^ 149) := by
  have hm : mag (fin z) ≠ 0 := by simp only [mag]; omega
  have hn : isNeg (fin z) = false := by simp only [isNeg]; simp; omega
  rw [div_finite _ _ (isFinite_fin z) (isFinite_fin z) hm, hn]
  have e : rnd (mag (fin z) * 2 ^ 149) (mag (fin z)) = 2 ^ 149 := by
    rw [Nat.mul_comm, rnd_scale _ _ (Nat.pos_of_ne_zero hm)]
    decide
  have h3 : ¬ QINF ≤ 2 ^ 149 := by decide
  unfold round
  rw [e, if_neg h3, if_neg (by norm_num)]
  simp

theorem finite_of_between {x : B32} {a b : Int} (h1 : le (fin a) x) (h2 : le x (fin b)) :
    isFinite x := by
  cases x <;> simp [le, isInf, isFinite] at h1 h2 ⊢

theorem val_le_of_le {x y : B32} (hx : isFinite x) (hy : isFinite y) (h : le x y) :
    val x ≤ val y := by
  rcases le_cases h with ⟨rfl, _⟩ | ⟨rfl, _⟩ | ⟨_, _, hv⟩
  · exact absurd hx.2 (by simp [isInf])
  · exact absurd hy.2 (by simp [isInf])
  · exact hv

end B32

namespace B32

/-- The fraction `(float)i / steps` does not decrease with `i`. -/
theorem frac_le (n : Nat) (h0 : 0 < n) (h1 : n < 2 ^ 32) {i j : Nat} (h : i ≤ j) :
    le (div (ofNat i) (ofNat n)) (div (ofNat j) (ofNat n)) := by
  obtain ⟨z, e, hz⟩ := ofNat_pos_fin n h0 h1
  rw [e]
  exact div_le_div_right32 z hz _ _ (ofNat_le_ofNat h)

theorem frac_zero (n : Nat) (h0 : 0 < n) (h1 : n < 2 ^ 32) :
    div (ofNat 0) (ofNat n) = fin 0 := by
  obtain ⟨z, e, hz⟩ := ofNat_pos_fin n h0 h1
  rw [e, ofNat_zero]
  exact div_zero_pos z hz

theorem frac_one (n : Nat) (h0 : 0 < n) (h1 : n < 2 ^ 32) :
    div (ofNat n) (ofNat n) = fin (2 ^ 149) := by
  obtain ⟨z, e, hz⟩ := ofNat_pos_fin n h0 h1
  rw [e]
  exact div_self_pos z hz

/-- The fractions `(float)k / steps` for `k = 0..steps` are finite. -/
theorem frac_finite (n : Nat) (h0 : 0 < n) (h1 : n < 2 ^ 32) (k : Nat) (hk : k ≤ n) :
    isFinite (div (ofNat k) (ofNat n)) := by
  have a := frac_le n h0 h1 (Nat.zero_le k)
  have b := frac_le n h0 h1 hk
  rw [frac_zero n h0 h1] at a
  rw [frac_one n h0 h1] at b
  exact finite_of_between a b

/-- With a non-negative finite difference `d` the value `a + d * x` does not decrease
with `x`. -/
theorem interp_mono_up (a d x y : B32) (ha : isFinite a) (hd : isFinite d)
    (h0 : 0 ≤ val d) (hx : isFinite x) (hy : isFinite y) (h : le x y) :
    le (add a (mul d x)) (add a (mul d y)) :=
  add_le_add_left32 a _ _ ha
    (mul_le_mul_left_finite d x y hd hx hy h0 (val_le_of_le hx hy h))

/-- With a non-positive finite difference `d` the value `a + d * x` does not increase
with `x`. -/
theorem interp_mono_down (a d x y : B32) (ha : isFinite a) (hd : isFinite d)
    (h0 : val d ≤ 0) (hx : isFinite x) (hy : isFinite y) (h : le x y) :
    le (add a (mul d y)) (add a (mul d x)) :=
  add_le_add_left32 a _ _ ha
    (mul_le_mul_left_finite_nonpos d x y hd hx hy h0 (val_le_of_le hx hy h))

theorem sub_nonneg_of_le (a b : B32) (ha : isFinite a) (hd : isFinite (sub b a))
    (h : le a b) : 0 ≤ val (sub b a) := by
  have h1 := sub_le_sub_right32 a b a ha h
  rw [sub_self32 ha] at h1
  exact val_le_of_le (isFinite_fin 0) hd h1

theorem sub_nonpos_of_le (a b : B32) (ha : isFinite a) (hd : isFinite (sub b a))
    (h : le b a) : val (sub b a) ≤ 0 := by
  have h1 := sub_le_sub_right32 b a a ha h
  rw [sub_self32 ha] at h1
  exact val_le_of_le hd (isFinite_fin 0) h1

/-- The spacing exponent is determined by the binade. -/
theorem shift_unique {q e : Nat} (h1 : q < 2 ^ (24 + e)) (h2 : e = 0 ∨ 2 ^ (23 + e) ≤ q) :
    shift q = e := by
  obtain ⟨s1, s2⟩ := shift_spec q
  by_contra hne
  rcases Nat.lt_or_gt_of_ne hne with hlt | hgt
  · have : 2 ^ (24 + shift q) ≤ 2 ^ (23 + e) := Nat.pow_le_pow_right (by norm_num) (by omega)
    rcases h2 with h2 | h2
    · omega
    · omega
  · have : 2 ^ (24 + e) ≤ 2 ^ (23 + shift q) := Nat.pow_le_pow_right (by norm_num) (by omega)
    rcases s2 with s2 | s2
    · omega
    · omega

/-- A rounded magnitude is a multiple of the spacing at its own magnitude. -/
theorem rnd_wf (a b : Nat) (hb : 0 < b) : rnd a b % 2 ^ shift (rnd a b) = 0 := by
  obtain ⟨u1, u2⟩ := shift_spec (a / b)
  have hp : 0 < 2 ^ shift (a / b) := Nat.pow_pos (by norm_num)
  have up : rhe a (b * 2 ^ shift (a / b)) ≤ 2 ^ 24 := by
    apply rhe_upper _ _ _ (Nat.mul_pos hb hp)
    rw [Nat.div_lt_iff_lt_mul hb] at u1
    have : 2 ^ (24 + shift (a / b)) * b = 2 ^ 24 * (b * 2 ^ shift (a / b)) := by ring
    omega
  have lo : shift (a / b) = 0 ∨ 2 ^ 23 ≤ rhe a (b * 2 ^ shift (a / b)) := by
    rcases u2 with u2 | u2
    · exact Or.inl u2
    · right
      apply rhe_lower _ _ _ (Nat.mul_pos hb hp)
      have h1 : 2 ^ (23 + shift (a / b)) * b ≤ a / b * b := Nat.mul_le_mul_right b u2
      have h2 : a / b * b ≤ a := Nat.div_mul_le_self a b
      have : 2 ^ (23 + shift (a / b)) * b = 2 ^ 23 * (b * 2 ^ shift (a / b)) := by ring
      omega
  unfold rnd
  generalize rhe a (b * 2 ^ shift (a / b)) = r at up lo
  generalize shift (a / b) = s at lo hp
  rcases Nat.lt_or_eq_of_le up with hlt | heq
  · have e : shift (r * 2 ^ s) = s := by
      apply shift_unique
      · calc r * 2 ^ s < 2 ^ 24 * 2 ^ s := Nat.mul_lt_mul_of_pos_right hlt hp
          _ = 2 ^ (24 + s) := by ring
      · rcases lo with lo | lo
        · exact Or.inl lo
        · right
          calc 2 ^ (23 + s) = 2 ^ 23 * 2 ^ s := by ring
            _ ≤ r * 2 ^ s := Nat.mul_le_mul_right _ lo
    rw [e]
    exact Nat.mul_mod_left r (2 ^ s)
  · subst heq
    have e : shift (2 ^ 24 * 2 ^ s) = s + 1 := by
      apply shift_unique
      · calc 2 ^ 24 * 2 ^ s < 2 ^ 24 * 2 ^ s * 2 := by
              have : 0 < 2 ^ 24 * 2 ^ s := Nat.mul_pos (by norm_num) hp
              omega
          _ = 2 ^ (24 + (s + 1)) := by ring
      · right
        exact Nat.le_of_eq (by ring)
    rw [e]
    apply Nat.mod_eq_zero_of_dvd
    exact ⟨2 ^ 23, by ring⟩

/-- Every result of rounding is a value binary32 can hold. -/
theorem round_wf (neg : Bool) (a b : Nat) (hb : 0 < b) : wf (round neg a b) := by
  unfold round
  by_cases h1 : QINF ≤ rnd a b
  · rw [if_pos h1]
    cases neg <;> simp [infS, wf, mag, QINF_pos]
  · rw [if_neg h1]
    by_cases h2 : rnd a b = 0
    · rw [if_pos h2]
      cases neg <;> simp [zeroS, wf, mag, QINF_pos]
    · rw [if_neg h2]
      have hm : mag (fin (if neg = true then -(rnd a b : Int) else (rnd a b : Int)))
          = rnd a b := by
        cases neg <;> simp [mag]
      unfold wf
      rw [hm]
      exact ⟨Nat.lt_of_not_le h1, rnd_wf a b hb⟩

theorem add_wf (a c : B32) (ha : isFinite a) (hc : isFinite c) : wf (add a c) := by
  obtain ⟨ng, e, _⟩ := add_finite a c ha hc
  rw [e]
  exact round_wf _ _ _ (by norm_num)

/-- Multiplying a value binary32 can hold by `1.0f` returns the value. -/
theorem mul_one_wf (d : B32) (hd : isFinite d) (hw : wf d) : mul d (fin (2 ^ 149)) = d := by
  rw [mul_finite d _ hd (isFinite_fin _)]
  have hm : mag (fin (2 ^ 149)) = 2 ^ 149 := by decide
  have hn : isNeg (fin (2 ^ 149)) = false := by decide
  rw [hm, hn, Bool.xor_false]
  have e : rnd (mag d * 2 ^ 149) (2 ^ 149) = mag d := by
    rw [rnd_scale _ _ (by positivity)]
    exact rnd_idem hw.2
  unfold round
  rw [e, if_neg (Nat.not_le.mpr hw.1)]
  rcases isFinite_cases hd with ⟨z, rfl⟩ | rfl
  · by_cases hz : z = 0
    · subst hz
      simp [mag, isNeg, zeroS]
    · have : mag (fin z) ≠ 0 := by simp only [mag]; omega
      rw [if_neg this]
      congr 1
      simp only [mag, isNeg]
      by_cases hneg : z < 0
      · simp only [hneg, decide_True, if_true]; omega
      · simp only [hneg, decide_False, Bool.false_eq_true, if_false]; omega
  · simp [mag, isNeg, zeroS]

/-- The difference is finite only if the minuend is. -/
theorem finite_of_sub_finite (a b : B32) (ha : isFinite a) (hd : isFinite (sub b a)) :
    isFinite b := by
  rcases isFinite_cases ha with ⟨z, rfl⟩ | rfl
  · cases b <;> simp [sub, neg, add, isInf, isFinite] at hd ⊢
    all_goals (by_cases hz : z = 0 <;> simp [hz, isInf, isNeg] at hd)
  · cases b <;> simp [sub, neg, add, isInf, isFinite, isNeg] at hd ⊢

/-- The first interpolated value is the start itself. -/
theorem interp_first (a b : B32) (z : Int) (ha : a = fin z) (hw : wf a)
    (hd : isFinite (sub b a)) : add a (mul (sub b a) (fin 0)) = a := by
  subst ha
  rw [mul_zero_right _ hd]
  exact add_zeroS z hw _

/-- The last interpolated value is `a + (b - a)` in float arithmetic. -/
theorem interp_last (a b : B32) (ha : isFinite a) (hd : isFinite (sub b a)) :
    add a (mul (sub b a) (fin (2 ^ 149))) = add a (sub b a) := by
  have hb := finite_of_sub_finite a b ha hd
  have hw : wf (sub b a) := add_wf b (neg a) hb (neg_finite ha)
  rw [mul_one_wf _ hd hw]

end B32

namespace B32

theorem gradient_temp_as_sweep [Libm32] (a b : B32) (i : Nat) :
    gradient_temp a b i = sweep_temp a b 40 i := by
  rw [gradient_temp_eq, sweep_temp_eq]

/-- The first sample of a sweep is the start temperature. -/
theorem sweep_temp_first [Libm32] (a b : B32) (n : Nat) (h0 : 0 < n) (h1 : n < 2 ^ 32)
    (ha : isFinite a) (hw : wf a) (hz : a ≠ nzero) (hd : isFinite (sub b a)) :
    sweep_temp a b n 0 = a := by
  rw [sweep_temp_eq, frac_zero n h0 h1]
  rcases isFinite_cases ha with ⟨z, rfl⟩ | rfl
  · exact interp_first _ b z rfl hw hd
  · exact absurd rfl hz

/-- The last sample of a sweep is `t_start + (t_end - t_start)` in float arithmetic. -/
theorem sweep_temp_last [Libm32] (a b : B32) (n : Nat) (h0 : 0 < n) (h1 : n < 2 ^ 32)
    (ha : isFinite a) (hd : isFinite (sub b a)) :
    sweep_temp a b n n = add a (sub b a) := by
  rw [sweep_temp_eq, frac_one n h0 h1]
  exact interp_last a b ha hd

/-- Rising sweep: the samples do not decrease. -/
theorem sweep_temp_mono_up [Libm32] (a b : B32) (n : Nat) (h0 : 0 < n) (h1 : n < 2 ^ 32)
    (ha : isFinite a) (hd : isFinite (sub b a)) (h : le a b) {i j : Nat} (hij : i ≤ j)
    (hj : j ≤ n) : le (sweep_temp a b n i) (sweep_temp a b n j) := by
  rw [sweep_temp_eq, sweep_temp_eq]
  exact interp_mono_up a _ _ _ ha hd (sub_nonneg_of_le a b ha hd h)
    (frac_finite n h0 h1 i (le_trans hij hj)) (frac_finite n h0 h1 j hj)
    (frac_le n h0 h1 hij)

/-- Falling sweep: the samples do not increase. -/
theorem sweep_temp_mono_down [Libm32] (a b : B32) (n : Nat) (h0 : 0 < n) (h1 : n < 2 ^ 32)
    (ha : isFinite a) (hd : isFinite (sub b a)) (h : le b a) {i j : Nat} (hij : i ≤ j)
    (hj : j ≤ n) : le (sweep_temp a b n j) (sweep_temp a b n i) := by
  rw [sweep_temp_eq, sweep_temp_eq]
  exact interp_mono_down a _ _ _ ha hd (sub_nonpos_of_le a b ha hd h)
    (frac_finite n h0 h1 i (le_trans hij hj)) (frac_finite n h0 h1 j hj)
    (frac_le n h0 h1 hij)

end B32

/-- The temperature `thermistor_set_gradient` leaves in channel `i`. -/
theorem gradient_channel_temp {F : Type} [FloatOps F] (t_min t_max : F) (st : Sim F)
    (i : Fin NUM_CHANNELS) :
    ((thermistor_set_gradient t_min t_max st).2.channels i).current_temp
      = gradient_temp t_min t_max i.val := by
  rw [gradient_channel_record]

/-- A sweep of a valid channel with `0 < steps < 2^32 - 1` returns; its effect is that of
the `steps + 1` calls of `thermistor_set_temp`, each followed by the sleep. -/
theorem sweep_run {F : Type} [FloatOps F] (c steps duration_ms fuel : Nat) (t_start t_end : F)
    (st : Sim F) (hc : c < NUM_CHANNELS) (h0 : 0 < steps) (h1 : steps < 2 ^ 32 - 1)
    (hf : steps + 2 ≤ fuel) :
    ∃ st1 : Sim F,
      thermistor_sweep_channel fuel c t_start t_end duration_ms steps st
        = Outcome.returned st1
      ∧ st1 = (List.range (steps + 1)).foldl
          (fun s (k : Nat) => k_msleep (duration_ms / steps)
            (thermistor_set_temp c (sweep_temp t_start t_end steps k) s).2) st
      ∧ st1.console = st.console ++ (List.range (steps + 1)).map (fun (k : Nat) =>
          set_temp_printk c (sweep_temp t_start t_end steps k)
            (therm_duty_from_temp (sweep_temp t_start t_end steps k)))
      ∧ st1.channels ⟨c, hc⟩ =
          { st.channels ⟨c, hc⟩ with
            current_temp := sweep_temp t_start t_end steps steps
            current_duty := therm_duty_from_temp (sweep_temp t_start t_end steps steps) }
      ∧ ∀ j : Fin NUM_CHANNELS, j.val ≠ c → st1.channels j = st.channels j := by
  obtain ⟨g1, _, g3, g4⟩ := fold_sweep_body c t_start t_end (duration_ms / steps) steps hc
    (steps + 1) 0 st
  have hrun : thermistor_sweep_channel fuel c t_start t_end duration_ms steps st
      = Outcome.returned ((List.range' 0 (steps + 1)).foldl
        (fun s k => sweep_body c t_start t_end (duration_ms / steps) steps k s) st) := by
    unfold thermistor_sweep_channel
    rw [if_neg (Nat.pos_iff_ne_zero.mp h0)]
    exact sweep_loop_eq c _ _ _ steps h1 (steps + 1) 0 fuel st (by omega) (by omega)
  refine ⟨_, hrun, ?_, ?_, ?_, g3⟩
  · rw [List.range_eq_range']
    rfl
  · rw [g1, List.range_eq_range']
  · rw [g4 ⟨c, hc⟩ rfl (by omega)]
    have e : 0 + (steps + 1) - 1 = steps := by omega
    rw [e]

namespace B32

/-- The first sample of a sweep compares equal to the start temperature. -/
theorem sweep_temp_first_le [Libm32] (a b : B32) (n : Nat) (h0 : 0 < n) (h1 : n < 2 ^ 32)
    (ha : isFinite a) (hw : wf a) (hd : isFinite (sub b a)) :
    le a (sweep_temp a b n 0) ∧ le (sweep_temp a b n 0) a := by
  by_cases hz : a = nzero
  · subst hz
    rw [sweep_temp_eq, frac_zero n h0 h1, mul_zero_right _ hd]
    cases isNeg (sub b nzero) <;> decide
  · rw [sweep_temp_first a b n h0 h1 ha hw hz hd]
    exact ⟨le_refl32 ha.1, le_refl32 ha.1⟩

end B32

/-- C8, refuted as stated: after `thermistor_set_gradient(-40, 0.7)` channel 40 does not
hold `t_max = 0.7f` but the next float above it, and after
`thermistor_set_gradient(1e8, 1e8 + 8)` channels 0 and 1 hold the same temperature although
`t_min < t_max`. -/
theorem gradient_misses_t_max_and_repeats :
    B32.lt 100000000.0 100000008.0
    ∧ ∀ [Libm32] (st : Sim B32),
        ((thermistor_set_gradient (-40.0) 0.7 st).2.channels ⟨40, by decide⟩).current_temp
          ≠ (0.7 : B32)
        ∧ ((thermistor_set_gradient 100000000.0 100000008.0 st).2.channels
            ⟨0, by decide⟩).current_temp
          = ((thermistor_set_gradient 100000000.0 100000008.0 st).2.channels
            ⟨1, by decide⟩).current_temp := by
  refine ⟨by decide, ?_⟩
  intro _ st
  rw [gradient_channel_temp, gradient_channel_temp, gradient_channel_temp,
    B32.gradient_temp_eq, B32.gradient_temp_eq, B32.gradient_temp_eq]
  exact ⟨by decide, by decide⟩

/-- C8, amended: after `thermistor_set_gradient(t_min, t_max)` channel `i` holds the float
`t_min + (t_max - t_min) * ((float)i / 40)`, every operation rounded to binary32.  When
`t_min` is a finite binary32 value other than `-0.0` and the float `t_max - t_min` is
finite, channel 0 holds exactly `t_min` and channel 40 holds the float
`t_min + (t_max - t_min)` (which need not be `t_max`); the stored temperatures do not
decrease with the channel index when `t_min <= t_max` and do not increase when
`t_max <= t_min` (neighbouring channels can hold equal values). -/
theorem gradient_channel_temperatures [Libm32] (t_min t_max : B32) (st : Sim B32) :
    (∀ i : Fin NUM_CHANNELS,
        ((thermistor_set_gradient t_min t_max st).2.channels i).current_temp
          = B32.add t_min
              (B32.mul (B32.sub t_max t_min) (B32.div (B32.ofNat i.val) (B32.ofNat 40))))
    ∧ (B32.isFinite t_min → B32.wf t_min → t_min ≠ B32.nzero →
        B32.isFinite (B32.sub t_max t_min) →
        ((thermistor_set_gradient t_min t_max st).2.channels ⟨0, by decide⟩).current_temp
          = t_min
        ∧ ((thermistor_set_gradient t_min t_max st).2.channels ⟨40, by decide⟩).current_temp
          = B32.add t_min (B32.sub t_max t_min))
    ∧ (B32.isFinite t_min → B32.isFinite (B32.sub t_max t_min) → B32.le t_min t_max →
        ∀ i j : Fin NUM_CHANNELS, i ≤ j →
          B32.le ((thermistor_set_gradient t_min t_max st).2.channels i).current_temp
            ((thermistor_set_gradient t_min t_max st).2.channels j).current_temp)
    ∧ (B32.isFinite t_min → B32.isFinite (B32.sub t_max t_min) → B32.le t_max t_min →
        ∀ i j : Fin NUM_CHANNELS, i ≤ j →
          B32.le ((thermistor_set_gradient t_min t_max st).2.channels j).current_temp
            ((thermistor_set_gradient t_min t_max st).2.channels i).current_temp) := by
  have h41 := num_channels_eq
  refine ⟨?_, ?_, ?_, ?_⟩
  · intro i
    rw [gradient_channel_temp, B32.gradient_temp_eq]
  · intro hf hw hz hd
    rw [gradient_channel_temp, gradient_channel_temp, B32.gradient_temp_as_sweep,
      B32.gradient_temp_as_sweep]
    exact ⟨B32.sweep_temp_first _ _ 40 (by norm_num) (by norm_num) hf hw hz hd,
      B32.sweep_temp_last _ _ 40 (by norm_num) (by norm_num) hf hd⟩
  · intro hf hd hle i j hij
    rw [gradient_channel_temp, gradient_channel_temp, B32.gradient_temp_as_sweep,
      B32.gradient_temp_as_sweep]
    have hj : j.val ≤ 40 := by have := j.isLt; omega
    exact B32.sweep_temp_mono_up _ _ 40 (by norm_num) (by norm_num) hf hd hle hij hj
  · intro hf hd hle i j hij
    rw [gradient_channel_temp, gradient_channel_temp, B32.gradient_temp_as_sweep,
      B32.gradient_temp_as_sweep]
    have hj : j.val ≤ 40 := by have := j.isLt; omega
    exact B32.sweep_temp_mono_down _ _ 40 (by norm_num) (by norm_num) hf hd hle hij hj

/-- Witness of the amended C8: the gradient from -40 to 125. -/
theorem gradient_channel_temperatures_witness :
    B32.isFinite (-40.0) ∧ B32.wf (-40.0) ∧ (-40.0 : B32) ≠ B32.nzero
    ∧ B32.isFinite (B32.sub 125.0 (-40.0)) ∧ B32.le (-40.0) 125.0
    ∧ ∀ [Libm32] (st : Sim B32),
        ((thermistor_set_gradient (-40.0) 125.0 st).2.channels ⟨0, by decide⟩).current_temp
          = (-40.0 : B32)
        ∧ ((thermistor_set_gradient (-40.0) 125.0 st).2.channels ⟨40, by decide⟩).current_temp
          = B32.add (-40.0) (B32.sub 125.0 (-40.0))
        ∧ ∀ i j : Fin NUM_CHANNELS, i ≤ j →
          B32.le ((thermistor_set_gradient (-40.0) 125.0 st).2.channels i).current_temp
            ((thermistor_set_gradient (-40.0 : B32) 125.0 st).2.channels j).current_temp := by
  refine ⟨by decide, by decide, by decide, by decide, by decide, ?_⟩
  intro _ st
  have h := gradient_channel_temperatures (-40.0) 125.0 st
  obtain ⟨e0, e40⟩ := h.2.1 (by decide) (by decide) (by decide) (by decide)
  exact ⟨e0, e40, h.2.2.1 (by decide) (by decide) (by decide)⟩

/-- C9, refuted as stated: the sweep of channel 2 from -40 to 0.7 in 4 steps returns, and
the channel's final temperature is the float `-40 + (0.7 - (-40))`, which is not
`t_end = 0.7f`. -/
theorem sweep_final_record_misses_t_end :
    B32.add (-40.0) (B32.sub 0.7 (-40.0)) ≠ 0.7
    ∧ ∀ [Libm32], ∃ st1 : Sim B32,
        thermistor_sweep_channel 6 2 (-40.0) 0.7 1000 4 boot_state = Outcome.returned st1
        ∧ (st1.channels ⟨2, by decide⟩).current_temp
            = B32.add (-40.0) (B32.sub 0.7 (-40.0))
        ∧ (st1.channels ⟨2, by decide⟩).current_temp ≠ (0.7 : B32) := by
  have hne : B32.add (-40.0) (B32.sub 0.7 (-40.0)) ≠ 0.7 := by decide
  refine ⟨hne, ?_⟩
  intro _
  obtain ⟨st1, hrun, _, _, hrec, _⟩ := sweep_run 2 4 1000 6 (-40.0 : B32) 0.7 boot_state
    (by decide) (by decide) (by decide) (by decide)
  have e : sweep_temp (-40.0 : B32) 0.7 4 4 = B32.add (-40.0) (B32.sub 0.7 (-40.0)) :=
    B32.sweep_temp_last _ _ 4 (by decide) (by decide) (by decide) (by decide)
  have ht : (st1.channels ⟨2, by decide⟩).current_temp
      = B32.add (-40.0) (B32.sub 0.7 (-40.0)) := by
    rw [hrec]
    exact e
  refine ⟨st1, hrun, ht, ?_⟩
  rw [ht]
  exact hne

/-- C9, amended: for a valid channel `c`, all floats `t_start`, `t_end`, any duration and
any step count with `0 < steps < 2^32 - 1`, `thermistor_sweep_channel` returns (given
`steps + 2` evaluations of the loop condition); it has then made exactly the `steps + 1`
calls `thermistor_set_temp c s_k` for `k = 0..steps` in order, each followed by the sleep
and printing one line, where `s_k` is the float
`t_start + (t_end - t_start) * ((float)k / steps)` with every operation rounded to
binary32; channel `c` ends with `(s_steps, therm_duty_from_temp s_steps)` and every other
channel is unchanged.  When `t_start` is a finite binary32 value other than `-0.0` and the
float `t_end - t_start` is finite, the first sample is exactly `t_start` and the last is
the float `t_start + (t_end - t_start)`, which need not be `t_end`. -/
theorem sweep_sample_sequence [Libm32] (c steps duration_ms fuel : Nat) (t_start t_end : B32)
    (st : Sim B32) (hc : c < NUM_CHANNELS) (h0 : 0 < steps) (h1 : steps < 2 ^ 32 - 1)
    (hf : steps + 2 ≤ fuel) :
    ∃ st1 : Sim B32,
      thermistor_sweep_channel fuel c t_start t_end duration_ms steps st
        = Outcome.returned st1
      ∧ st1 = (List.range (steps + 1)).foldl
          (fun s (k : Nat) => k_msleep (duration_ms / steps)
            (thermistor_set_temp c (sweep_temp t_start t_end steps k) s).2) st
      ∧ st1.console = st.console ++ (List.range (steps + 1)).map (fun (k : Nat) =>
          set_temp_printk c (sweep_temp t_start t_end steps k)
            (therm_duty_from_temp (sweep_temp t_start t_end steps k)))
      ∧ st1.console.length = st.console.length + (steps + 1)
      ∧ (∀ k : Nat, sweep_temp t_start t_end steps k
          = B32.add t_start
              (B32.mul (B32.sub t_end t_start) (B32.div (B32.ofNat k) (B32.ofNat steps))))
      ∧ st1.channels ⟨c, hc⟩ =
          { st.channels ⟨c, hc⟩ with
            current_temp := sweep_temp t_start t_end steps steps
            current_duty := therm_duty_from_temp (sweep_temp t_start t_end steps steps) }
      ∧ (∀ j : Fin NUM_CHANNELS, j.val ≠ c → st1.channels j = st.channels j)
      ∧ (B32.isFinite t_start → B32.wf t_start → t_start ≠ B32.nzero →
          B32.isFinite (B32.sub t_end t_start) →
          sweep_temp t_start t_end steps 0 = t_start
          ∧ sweep_temp t_start t_end steps steps = B32.add t_start (B32.sub t_end t_start)) := by
  obtain ⟨st1, hrun, hfold, hcon, hrec, hoth⟩ :=
    sweep_run c steps duration_ms fuel t_start t_end st hc h0 h1 hf
  have h32 : steps < 2 ^ 32 := by omega
  refine ⟨st1, hrun, hfold, hcon, ?_, fun k => B32.sweep_temp_eq _ _ _ _, hrec, hoth, ?_⟩
  · rw [hcon]
    simp
  · intro hs hw hz hd
    exact ⟨B32.sweep_temp_first _ _ steps h0 h32 hs hw hz hd,
      B32.sweep_temp_last _ _ steps h0 h32 hs hd⟩

/-- Witness of the amended C9: a sweep of channel 2 from -40 to 125 degrees in 4 steps over
1000 ms, from the boot state. -/
theorem sweep_sample_sequence_witness :
    2 < NUM_CHANNELS ∧ 0 < 4 ∧ 4 < 2 ^ 32 - 1 ∧ 4 + 2 ≤ 6
    ∧ B32.isFinite (-40.0) ∧ B32.wf (-40.0) ∧ (-40.0 : B32) ≠ B32.nzero
    ∧ B32.isFinite (B32.sub 125.0 (-40.0))
    ∧ ∀ [Libm32], ∃ st1 : Sim B32,
      thermistor_sweep_channel 6 2 (-40.0) 125.0 1000 4 boot_state = Outcome.returned st1
      ∧ st1 = (List.range (4 + 1)).foldl
          (fun s (k : Nat) => k_msleep (1000 / 4)
            (thermistor_set_temp 2 (sweep_temp (-40.0) 125.0 4 k) s).2) boot_state
      ∧ st1.console = (boot_state : Sim B32).console ++
          (List.range (4 + 1)).map (fun (k : Nat) =>
            set_temp_printk 2 (sweep_temp (-40.0 : B32) 125.0 4 k)
              (therm_duty_from_temp (sweep_temp (-40.0 : B32) 125.0 4 k)))
      ∧ st1.console.length = (boot_state : Sim B32).console.length + (4 + 1)
      ∧ (∀ k : Nat, sweep_temp (-40.0 : B32) 125.0 4 k
          = B32.add (-40.0)
              (B32.mul (B32.sub 125.0 (-40.0)) (B32.div (B32.ofNat k) (B32.ofNat 4))))
      ∧ st1.channels ⟨2, by decide⟩ =
          { (boot_state : Sim B32).channels ⟨2, by decide⟩ with
            current_temp := sweep_temp (-40.0 : B32) 125.0 4 4
            current_duty := therm_duty_from_temp (sweep_temp (-40.0 : B32) 125.0 4 4) }
      ∧ (∀ j : Fin NUM_CHANNELS, j.val ≠ 2 →
          st1.channels j = (boot_state : Sim B32).channels j)
      ∧ sweep_temp (-40.0 : B32) 125.0 4 0 = (-40.0 : B32)
      ∧ sweep_temp (-40.0 : B32) 125.0 4 4 = B32.add (-40.0) (B32.sub 125.0 (-40.0)) := by
  refine ⟨by decide, by decide, by decide, by decide, by decide, by decide, by decide,
    by decide, ?_⟩
  intro _
  obtain ⟨st1, a1, a2, a3, a4, a5, a6, a7, a8⟩ :=
    sweep_sample_sequence 2 4 1000 6 (-40.0) 125.0 boot_state (by decide) (by decide)
      (by decide) (by decide)
  obtain ⟨b1, b2⟩ := a8 (by decide) (by decide) (by decide) (by decide)
  exact ⟨st1, a1, a2, a3, a4, a5, a6, a7, b1, b2⟩

/-- C18, refuted as stated: in the sweep from -40 to 0.7 in 4 steps the last sample is the
float `-40 + (0.7 - (-40))`, which is above `t_end = 0.7f`, and so is the temperature the
gradient from -40 to 0.7 stores in channel 40; the gradient from -3e38 to 3e38 stores NaN
in channel 0, which lies in no interval. -/
theorem sweep_sample_beyond_t_end :
    B32.le (-40.0) 0.7
    ∧ B32.lt 0.7 (B32.add (-40.0) (B32.sub 0.7 (-40.0)))
    ∧ (∀ [Libm32], sweep_temp (-40.0 : B32) 0.7 4 4 = B32.add (-40.0) (B32.sub 0.7 (-40.0)))
    ∧ (∀ [Libm32] (st : Sim B32),
        ((thermistor_set_gradient (-40.0) 0.7 st).2.channels ⟨40, by decide⟩).current_temp
          = B32.add (-40.0) (B32.sub 0.7 (-40.0)))
    ∧ ∀ [Libm32] (st : Sim B32),
        ((thermistor_set_gradient (-3e38) 3e38 st).2.channels ⟨0, by decide⟩).current_temp
          = B32.nan := by
  refine ⟨by decide, by decide, ?_, ?_, ?_⟩
  · intro _
    exact B32.sweep_temp_last _ _ 4 (by decide) (by decide) (by decide) (by decide)
  · intro _ st
    rw [gradient_channel_temp, B32.gradient_temp_as_sweep]
    exact B32.sweep_temp_last _ _ 40 (by decide) (by decide) (by decide) (by decide)
  · intro _ st
    rw [gradient_channel_temp, B32.gradient_temp_eq]
    decide

/-- C18, amended: the samples lie between `t_start` and the float
`t_start + (t_end - t_start)`, which can lie beyond `t_end`.  For a finite binary32
`t_start`, a finite float difference `t_end - t_start`, `0 < steps < 2^32` and `k` in
`0..steps`: when `t_start <= t_end` the sweep sample
`t_start + (t_end - t_start) * ((float)k / steps)` is at least `t_start` and at most
`t_start + (t_end - t_start)`, and when `t_end <= t_start` it is at most `t_start` and at
least `t_start + (t_end - t_start)`; likewise every temperature
`thermistor_set_gradient(t_start, t_end)` stores. -/
theorem samples_between_ends [Libm32] (t_start t_end : B32) (steps k : Nat) (st : Sim B32)
    (i : Fin NUM_CHANNELS) (h0 : 0 < steps) (h1 : steps < 2 ^ 32) (hk : k ≤ steps)
    (hf : B32.isFinite t_start) (hw : B32.wf t_start)
    (hd : B32.isFinite (B32.sub t_end t_start)) :
    (B32.le t_start t_end →
        B32.le t_start (sweep_temp t_start t_end steps k)
        ∧ B32.le (sweep_temp t_start t_end steps k) (B32.add t_start (B32.sub t_end t_start))
        ∧ B32.le t_start
            ((thermistor_set_gradient t_start t_end st).2.channels i).current_temp
        ∧ B32.le ((thermistor_set_gradient t_start t_end st).2.channels i).current_temp
            (B32.add t_start (B32.sub t_end t_start)))
    ∧ (B32.le t_end t_start →
        B32.le (B32.add t_start (B32.sub t_end t_start)) (sweep_temp t_start t_end steps k)
        ∧ B32.le (sweep_temp t_start t_end steps k) t_start
        ∧ B32.le (B32.add t_start (B32.sub t_end t_start))
            ((thermistor_set_gradient t_start t_end st).2.channels i).current_temp
        ∧ B32.le ((thermistor_set_gradient t_start t_end st).2.channels i).current_temp
            t_start) := by
  have h41 := num_channels_eq
  have hi : i.val ≤ 40 := by have := i.isLt; omega
  have f1 := B32.sweep_temp_first_le t_start t_end steps h0 h1 hf hw hd
  have f2 := B32.sweep_temp_first_le t_start t_end 40 (by norm_num) (by norm_num) hf hw hd
  have l1 := B32.sweep_temp_last t_start t_end steps h0 h1 hf hd
  have l2 := B32.sweep_temp_last t_start t_end 40 (by norm_num) (by norm_num) hf hd
  rw [gradient_channel_temp, B32.gradient_temp_as_sweep]
  constructor
  · intro hle
    have m1 := B32.sweep_temp_mono_up t_start t_end steps h0 h1 hf hd hle (Nat.zero_le k) hk
    have m2 := B32.sweep_temp_mono_up t_start t_end steps h0 h1 hf hd hle hk (Nat.le_refl _)
    have m3 := B32.sweep_temp_mono_up t_start t_end 40 (by norm_num) (by norm_num) hf hd hle
      (Nat.zero_le i.val) hi
    have m4 := B32.sweep_temp_mono_up t_start t_end 40 (by norm_num) (by norm_num) hf hd hle
      hi (Nat.le_refl _)
    rw [l1] at m2
    rw [l2] at m4
    exact ⟨B32.le_trans32 f1.1 m1, m2, B32.le_trans32 f2.1 m3, m4⟩
  · intro hle
    have m1 := B32.sweep_temp_mono_down t_start t_end steps h0 h1 hf hd hle (Nat.zero_le k) hk
    have m2 := B32.sweep_temp_mono_down t_start t_end steps h0 h1 hf hd hle hk (Nat.le_refl _)
    have m3 := B32.sweep_temp_mono_down t_start t_end 40 (by norm_num) (by norm_num) hf hd hle
      (Nat.zero_le i.val) hi
    have m4 := B32.sweep_temp_mono_down t_start t_end 40 (by norm_num) (by norm_num) hf hd hle
      hi (Nat.le_refl _)
    rw [l1] at m2
    rw [l2] at m4
    exact ⟨m2, B32.le_trans32 m1 f1.2, m4, B32.le_trans32 m3 f2.2⟩

/-- Witness of the amended C18: the third of five samples of a sweep from -40 to 0.7, and
channel 20 of the gradient from -40 to 0.7. -/
theorem samples_between_ends_witness :
    0 < 4 ∧ 4 < 2 ^ 32 ∧ 2 ≤ 4 ∧ B32.isFinite (-40.0) ∧ B32.wf (-40.0)
    ∧ B32.isFinite (B32.sub 0.7 (-40.0)) ∧ B32.le (-40.0) 0.7
    ∧ ∀ [Libm32],
        B32.le (-40.0) (sweep_temp (-40.0 : B32) 0.7 4 2)
        ∧ B32.le (sweep_temp (-40.0 : B32) 0.7 4 2) (B32.add (-40.0) (B32.sub 0.7 (-40.0)))
        ∧ B32.le (-40.0)
            ((thermistor_set_gradient (-40.0 : B32) 0.7 boot_state).2.channels
              ⟨20, by decide⟩).current_temp
        ∧ B32.le ((thermistor_set_gradient (-40.0 : B32) 0.7 boot_state).2.channels
              ⟨20, by decide⟩).current_temp
            (B32.add (-40.0) (B32.sub 0.7 (-40.0))) := by
  refine ⟨by decide, by decide, by decide, by decide, by decide, by decide, by decide, ?_⟩
  intro _
  exact (samples_between_ends (-40.0) 0.7 4 2 boot_state ⟨20, by decide⟩ (by decide)
    (by decide) (by decide) (by decide) (by decide) (by decide)).1 (by decide)

/-! ## The round trip over binary32 -/

/-- The round trip `therm_temp_from_voltage (therm_voltage_from_temp t)` returns the same
float for 25 and for the next float above 25, whatever the libm: it is not the identity on
the supported range. -/
theorem round_trip_not_injective :
    (25.0 : B32) ≠ 25.000002
    ∧ ∀ [Libm32], therm_temp_from_voltage (therm_voltage_from_temp (25.0 : B32))
        = therm_temp_from_voltage (therm_voltage_from_temp (25.000002 : B32)) := by
  have hk : B32.add 25.0 273.15 = B32.add 25.000002 273.15 := by decide
  refine ⟨by decide, ?_⟩
  intro _
  have hr : therm_resistance_from_temp (25.0 : B32)
      = therm_resistance_from_temp (25.000002 : B32) := by
    rw [B32.resistance_eq_expf, B32.resistance_eq_expf, hk]
  have hv : therm_voltage_from_temp (25.0 : B32) = therm_voltage_from_temp (25.000002 : B32) := by
    show therm_voltage_from_resistance (therm_resistance_from_temp (25.0 : B32))
      = therm_voltage_from_resistance (therm_resistance_from_temp (25.000002 : B32))
    rw [hr]
  rw [hv]

end ThermistorSim
